import Mathlib

/-!
# BIP-39 mnemonic codec (`src/src/bip39.c`)

A shallow embedding of the codec of `bip39.c` and the verification of its
specification.

Conventions of the embedding.

* `uint8_t` / `uint16_t` / `size_t` / `unsigned long` values are natural numbers;
  a store into a `uint8_t` or `uint16_t` object is written `% 256` / `% 65536`.
* `int` values are integers; `/` and `%` of C are `Int.tdiv` and `Int.tmod`.
* A byte buffer is a `List Nat`; `m[i]` is `m.getD i 0` and `m[i] = v` is `m.set i v`.
* A C string is the list of its bytes, the terminating NUL left out, so a
  well-formed C string has no zero byte (`IsCStr`).
* A `const char *` that may be `NULL` is an `Option` of a C string.
* The word table `bip39_word_list_en` (declared in `bip39_en.h`) and the hash
  `compute_sha256` (declared in `sha256.h`) are parameters `tbl` and `sha`.
-/

namespace Bip39

/-! ## C library and machine arithmetic -/

/-- A C string: the bytes before the terminating NUL. -/
abbrev CStr := List Nat

/-- Well-formed C string: every byte is a non-zero `char` value. -/
def IsCStr (s : CStr) : Prop := ∀ b ∈ s, 0 < b ∧ b < 256

instance (s : CStr) : Decidable (IsCStr s) := by
  unfold IsCStr; infer_instance

/-- Every element of a byte buffer is a `uint8_t` value. -/
def IsBytes (m : List Nat) : Prop := ∀ b ∈ m, b < 256

instance (m : List Nat) : Decidable (IsBytes m) := by
  unfold IsBytes; infer_instance

/-- A SHA-256 digest: `SHA256_LEN = 32` bytes. -/
def IsDigest (d : List Nat) : Prop := d.length = 32 ∧ IsBytes d

instance (d : List Nat) : Decidable (IsDigest d) := by
  unfold IsDigest; infer_instance

/-- The libc function `strcmp` on C strings: the difference of the first pair of bytes
that differ, the end of a string reading as the NUL byte. -/
def strcmp : CStr → CStr → Int
  | [], [] => 0
  | [], b :: _ => 0 - (b : Int)
  | a :: _, [] => (a : Int)
  | a :: s, b :: t => if a = b then strcmp s t else (a : Int) - (b : Int)

/-- Conversion of a mathematical result to a 32-bit two's complement `int`. -/
def wrap_int (x : Int) : Int := (x + 2147483648) % 4294967296 - 2147483648

/-- Conversion of an `int` to `uint16_t`. -/
def to_u16 (x : Int) : Nat := (x % 65536).toNat

/-! ## Macros (lines 32-35) -/

/-- Macro `bit_set_u8(m, b)`: `m[b / 8] |= (1UL << (b % 8))`. -/
def bit_set_u8 (m : List Nat) (b : Nat) : List Nat :=
  m.set (b / 8) ((m.getD (b / 8) 0 ||| (1 <<< (b % 8))) % 256)

/-- Macro `is_bit_set_u8(m, b)`: `(m[b / 8] & (1UL << (b % 8))) == (1UL << (b % 8))`. -/
def is_bit_set_u8 (m : List Nat) (b : Nat) : Bool :=
  (m.getD (b / 8) 0 &&& (1 <<< (b % 8))) == (1 <<< (b % 8))

/-- Macro `bits_to_bytes(b)`, as it expands inside `(bits_to_bytes(nr_bits) * 8)`. -/
def bits_to_bytes (b : Nat) : Nat := (b + 7) / 8

/-- Macro `bit_mask(n)`: `((1UL << (n + 1)) - 1)`. -/
def bit_mask (n : Nat) : Nat := (1 <<< (n + 1)) - 1

/-! ## Bit reversal (lines 37-50) -/

/-- Function `u8_reverse_bits` (lines 37-42). -/
def u8_reverse_bits (b : Nat) : Nat :=
  let b1 := (((b &&& 0xaa) >>> 1) ||| ((b &&& 0x55) <<< 1)) % 256
  let b2 := (((b1 &&& 0xcc) >>> 2) ||| ((b1 &&& 0x33) <<< 2)) % 256
  ((b2 >>> 4) ||| (b2 <<< 4)) % 256

/-- Function `u16_reverse_bits` (lines 44-50). -/
def u16_reverse_bits (x : Nat) : Nat :=
  let x1 := (((x &&& 0xaaaa) >>> 1) ||| ((x &&& 0x5555) <<< 1)) % 65536
  let x2 := (((x1 &&& 0xcccc) >>> 2) ||| ((x1 &&& 0x3333) <<< 2)) % 65536
  let x3 := (((x2 &&& 0xf0f0) >>> 4) ||| ((x2 &&& 0x0f0f) <<< 4)) % 65536
  ((x3 >>> 8) ||| (x3 <<< 8)) % 65536

/-! ## Dictionary (lines 52-75, 110-115) -/

/-- Function `bip39_mnemonic_word` (lines 52-58); `~0x7ff` is the `int` -2048. -/
def bip39_mnemonic_word (tbl : Nat → CStr) (bits : Int) : Option CStr :=
  if Int.land bits (~~~ (0x7ff : Int)) ≠ 0 then none
  else some (tbl bits.toNat)

/-- The `while (left < right)` loop of `bip39_mnemonic_word_to_bits` (lines 64-73),
run for at most `fuel` iterations: `some r` when the function returns `r` (the
`return mid` inside the loop or the `return -1` after it), `none` when the fuel
is used up before the loop ends. -/
def word_search (tbl : Nat → CStr) (word : CStr) : Nat → Int → Int → Option Int
  | 0, _, _ => none
  | fuel + 1, left, right =>
    if left < right then
      let mid := Int.tdiv (left + right) 2
      let ret := strcmp word (tbl mid.toNat)
      if ret = 0 then some mid
      else if ret < 0 then word_search tbl word fuel left mid
      else word_search tbl word fuel (mid + 1) right
    else some (-1)

/-- Function `bip39_mnemonic_word_to_bits` (lines 60-75): `left = 0`, `right = 2048`.
The value is `none` only if 2048 iterations do not end the loop. -/
def bip39_mnemonic_word_to_bits (tbl : Nat → CStr) (word : CStr) : Option Int :=
  word_search tbl word 2048 0 2048

/-- Function `bip39_word_is_valid` (lines 110-115): the outer `Option` is the
termination of the search, the inner one the returned pointer (`none` is `NULL`). -/
def bip39_word_is_valid (tbl : Nat → CStr) (word : CStr) : Option (Option CStr) :=
  (bip39_mnemonic_word_to_bits tbl word).map
    (fun pos => if pos = -1 then none else some (tbl pos.toNat))

/-! ## Bit packer (lines 94-108) -/

/-- The loop of `bit_range_extract` (lines 102-107) after `n` iterations, started at
`from` and `write_to`: iteration `k` tests bit `from + k` of `src` and sets bit
`write_to + k` of `dst`. -/
def bit_range_copy (src : List Nat) (from_ write_to : Nat) : Nat → List Nat → List Nat
  | 0, dst => dst
  | n + 1, dst =>
    let dst' := bit_range_copy src from_ write_to n dst
    if is_bit_set_u8 src (from_ + n) then bit_set_u8 dst' (write_to + n) else dst'

/-- Function `bit_range_extract` (lines 94-108). The loop `while (from < to)` advances
`from` by one each time, so it runs `to - from` times (not at all when `to ≤ from`). -/
def bit_range_extract (dst : List Nat) (base : Nat) (src : List Nat) (from_ to_ : Nat)
    (right_justified : Bool) : List Nat :=
  let nr_bits := to_ - from_
  let free_bits := (bits_to_bytes nr_bits * 8) - nr_bits
  let write_to := base + (if right_justified then free_bits else 0)
  bit_range_copy src from_ write_to nr_bits dst

/-- The loops `for (i = 0; i < n; i++) m[i] = u8_reverse_bits(m[i]);` (lines 132-133
and 171-172) after `n` iterations. -/
def reverse_bytes (m : List Nat) : Nat → List Nat
  | 0 => m
  | n + 1 => (reverse_bytes m n).set n (u8_reverse_bits ((reverse_bytes m n).getD n 0))

/-! ## Codec (lines 117-180) -/

/-- Outputs of `bip39_key_to_mnemonic_words`: the return code, the caller's `words`
array and the caller's `*p_nr_words` as the call leaves them. -/
structure EncodeOut where
  rc : Int
  words : List (Option CStr)
  nr_words : Int
deriving DecidableEq, Repr

/-- The word loop of `bip39_key_to_mnemonic_words` (lines 134-143) after `n` iterations,
on the bit-reversed buffer `kwc`: the `words` array and whether the loop has left the
function through `return -2`. -/
def encode_words (tbl : Nat → CStr) (kwc : List Nat) :
    Nat → List (Option CStr) → List (Option CStr) × Bool
  | 0, words => (words, false)
  | i + 1, words =>
    let st := encode_words tbl kwc i words
    if st.2 then st
    else
      let mnemonic_bits := bit_range_extract [0, 0] 0 kwc (11 * i) (11 * (i + 1)) true
      let bits : Nat := (u8_reverse_bits (mnemonic_bits.getD 0 0) <<< 8) |||
        u8_reverse_bits (mnemonic_bits.getD 1 0)
      let w := bip39_mnemonic_word tbl (bits : Int)
      (st.1.set i w, w.isNone)

/-- Function `bip39_key_to_mnemonic_words` (lines 117-146). `key` is the memory `key`
points to, `words` and `nr_words_in` are the caller's `words` array and `*p_nr_words`
before the call. The products in the initialiser of `nr_words` are taken in `int`. -/
def bip39_key_to_mnemonic_words (tbl : Nat → CStr) (sha : List Nat → List Nat)
    (key : List Nat) (key_len : Int) (words : List (Option CStr)) (nr_words_in : Int) :
    EncodeOut :=
  let nr_words : Int := Int.tdiv (wrap_int (wrap_int (key_len * 8) + 10)) 11
  if key_len < 16 ∨ key_len > 32 ∨ Int.tmod (key_len * 8) 32 ≠ 0 then
    ⟨-1, words, nr_words_in⟩
  else
    let digest := sha (key.take key_len.toNat)
    let key_with_checksum := key.take key_len.toNat ++ [digest.getD 0 0]
    let key_with_checksum := reverse_bytes key_with_checksum (key_len + 1).toNat
    let st := encode_words tbl key_with_checksum nr_words.toNat words
    if st.2 then ⟨-2, st.1, nr_words_in⟩
    else ⟨0, st.1, nr_words⟩

/-- Outputs of `bip39_key_from_mnemonic_words`: the return code, the caller's `key`
buffer and `*p_key_len` as the call leaves them, and (a ghost counter) the number of
calls of `bip39_mnemonic_word_to_bits` the call made. -/
structure DecodeOut where
  rc : Int
  key : List Nat
  key_len : Int
  lookups : Nat
deriving DecidableEq, Repr

/-- The word loop of `bip39_key_from_mnemonic_words` (lines 162-170) after `n`
iterations: the buffer `key_with_checksum` and the number of dictionary lookups made;
`none` if a lookup does not terminate. -/
def decode_words (tbl : Nat → CStr) (words : List CStr) :
    Nat → Option (List Nat × Nat)
  | 0 => some (List.replicate 33 0, 0)
  | i + 1 =>
    (decode_words tbl words i).bind fun st =>
    (bip39_mnemonic_word_to_bits tbl (words.getD i [])).map fun bits =>
      let bits : Nat := u16_reverse_bits (to_u16 bits) >>> 5
      let mnemonic_bits : List Nat := [0, 0]
      let mnemonic_bits := mnemonic_bits.set 1 ((bits >>> 8) &&& 0xff)
      let mnemonic_bits := mnemonic_bits.set 0 (bits &&& 0xff)
      (bit_range_extract st.1 (11 * i) mnemonic_bits 0 11 false, st.2 + 1)

/-- Function `bip39_key_from_mnemonic_words` (lines 148-180). `words` is the caller's
`words` array, `key_in` and `key_len_in` the caller's `key` buffer and `*p_key_len`
before the call. The products in the initialisers of `key_len` and `checksum_len`
are taken in `int`. The value is `none` if a dictionary lookup does not terminate. -/
def bip39_key_from_mnemonic_words (tbl : Nat → CStr) (sha : List Nat → List Nat)
    (words : List CStr) (nr_words : Int) (key_in : List Nat) (key_len_in : Int) :
    Option DecodeOut :=
  let key_len : Int := Int.tdiv (wrap_int (wrap_int (nr_words * 11) - 1)) 8
  let checksum_len : Int := wrap_int (wrap_int (nr_words * 11) - wrap_int (key_len * 8))
  if nr_words ≠ 12 ∧ nr_words ≠ 15 ∧ nr_words ≠ 18 ∧ nr_words ≠ 21 ∧ nr_words ≠ 24 then
    some ⟨-1, key_in, key_len_in, 0⟩
  else
    (decode_words tbl words nr_words.toNat).map fun st =>
      let key_with_checksum := reverse_bytes st.1 (key_len + 1).toNat
      let digest := sha (key_with_checksum.take key_len.toNat)
      let digest0 := (digest.getD 0 0 &&&
        (bit_mask checksum_len.toNat <<< (8 - checksum_len).toNat)) % 256
      let key := key_with_checksum.take key_len.toNat ++ key_in.drop key_len.toNat
      if key_with_checksum.getD key_len.toNat 0 ≠ digest0 then
        ⟨-2, key, key_len, st.2⟩
      else ⟨0, key, key_len, st.2⟩

/-! ## Reference definitions of the specification -/

/-- Big-endian value of a byte string: `N = Σ b_j * 256^(len - 1 - j)`. -/
def be_value (m : List Nat) : Nat := m.foldl (fun acc b => acc * 256 + b) 0

/-- Big-endian concatenation of the first `n` 11-bit word indices:
`X = Σ_{i < n} x_i * 2^(11 * (n - 1 - i))`. -/
def index_concat (x : Nat → Nat) (n : Nat) : Nat :=
  ∑ i in Finset.range n, x i * 2 ^ (11 * (n - 1 - i))

/-- The word table as the specification requires it: 2048 well-formed strings, sorted
strictly ascending under `strcmp` (sorted and distinct). -/
def SortedTable (tbl : Nat → CStr) : Prop :=
  (∀ i, i < 2048 → IsCStr (tbl i)) ∧
  ∀ i j, i < j → j < 2048 → strcmp (tbl i) (tbl j) < 0


/-- Bit `p` of a buffer in the numbering of the macros: bit `p % 8` of byte `p / 8`. -/
def buf_bit (m : List Nat) (p : Nat) : Bool := (m.getD (p / 8) 0).testBit (p % 8)

/-- The value `bits` that iteration `i` of the word loop of
`bip39_key_to_mnemonic_words` (lines 135-140) computes from the buffer `kwc`. -/
def group_value (kwc : List Nat) (i : Nat) : Nat :=
  let mnemonic_bits := bit_range_extract [0, 0] 0 kwc (11 * i) (11 * (i + 1)) true
  (u8_reverse_bits (mnemonic_bits.getD 0 0) <<< 8) ||| u8_reverse_bits (mnemonic_bits.getD 1 0)

/-- The 11-bit value that iteration `i` of the word loop of
`bip39_key_from_mnemonic_words` (lines 163-164) derives from `words[i]`: the index the
lookup returns, and 2047 for the return value -1, whose conversion to `uint16_t` is
`0xffff`. -/
def word_value (tbl : Nat → CStr) (words : List CStr) (i : Nat) : Nat :=
  match bip39_mnemonic_word_to_bits tbl (words.getD i []) with
  | some r => if r = -1 then 2047 else r.toNat
  | none => 0

/-- Valid key lengths in bytes. -/
def ValidKeyLen (n : Nat) : Prop := n = 16 ∨ n = 20 ∨ n = 24 ∨ n = 28 ∨ n = 32

instance (n : Nat) : Decidable (ValidKeyLen n) := by
  unfold ValidKeyLen; infer_instance

/-- Valid sentence lengths in words. -/
def ValidWordCount (n : Nat) : Prop := n = 12 ∨ n = 15 ∨ n = 18 ∨ n = 21 ∨ n = 24

instance (n : Nat) : Decidable (ValidWordCount n) := by
  unfold ValidWordCount; infer_instance

/-! ## Concrete collaborators for worked instances -/

/-- A word table of 2048 two-byte strings in ascending order: entry `i` is the pair of
bytes `i / 64 + 1`, `i % 64 + 1`. -/
def demo_tbl (i : Nat) : CStr := [i / 64 + 1, i % 64 + 1]

/-- A hash collaborator with a fixed 32-byte digest whose first byte is `0x5a`. -/
def demo_sha (_ : List Nat) : List Nat := 0x5a :: List.replicate 31 0

/-- The first `n` bits of a buffer in the numbering of the macros, as the doc comment of
`bit_range_extract` draws them: digit `p` is bit `p % 8` of byte `p / 8`. -/
def bit_string (m : List Nat) (n : Nat) : List Nat :=
  (List.range n).map fun p => if buf_bit m p then 1 else 0

/-- The loop of `bip39_mnemonic_word_to_bits` (lines 64-73) as in `word_search`, with a
ghost list of the indices `mid` it probes, one for each call of `strcmp`, in order. -/
def word_search_probes (tbl : Nat → CStr) (word : CStr) :
    Nat → Int → Int → Option (Int × List Int)
  | 0, _, _ => none
  | fuel + 1, left, right =>
    if left < right then
      let mid := Int.tdiv (left + right) 2
      let ret := strcmp word (tbl mid.toNat)
      if ret = 0 then some (mid, [mid])
      else if ret < 0 then
        (word_search_probes tbl word fuel left mid).map fun p => (p.1, mid :: p.2)
      else (word_search_probes tbl word fuel (mid + 1) right).map fun p => (p.1, mid :: p.2)
    else some (-1, [])

/-! ## The codec with checked array accesses

The same code with `Option`-returning indexing: an access outside its array gives `none`.
The buffer `key_with_checksum` of the encoder is its initialised part, bytes
`0 .. key_len`. -/

/-- Macro `is_bit_set_u8(m, b)`, the read of `m[b / 8]` checked. -/
def is_bit_set_u8_chk (m : List Nat) (b : Nat) : Option Bool :=
  m[b / 8]?.map fun v => (v &&& (1 <<< (b % 8))) == (1 <<< (b % 8))

/-- Macro `bit_set_u8(m, b)`, the access to `m[b / 8]` checked. -/
def bit_set_u8_chk (m : List Nat) (b : Nat) : Option (List Nat) :=
  m[b / 8]?.map fun v => m.set (b / 8) ((v ||| (1 <<< (b % 8))) % 256)

/-- The loop of `bit_range_extract` after `n` iterations, accesses checked. -/
def bit_range_copy_chk (src : List Nat) (from_ write_to : Nat) :
    Nat → List Nat → Option (List Nat)
  | 0, dst => some dst
  | n + 1, dst =>
    (bit_range_copy_chk src from_ write_to n dst).bind fun dst' =>
    (is_bit_set_u8_chk src (from_ + n)).bind fun b =>
      if b then bit_set_u8_chk dst' (write_to + n) else some dst'

/-- Function `bit_range_extract`, accesses checked. -/
def bit_range_extract_chk (dst : List Nat) (base : Nat) (src : List Nat) (from_ to_ : Nat)
    (right_justified : Bool) : Option (List Nat) :=
  let nr_bits := to_ - from_
  let free_bits := (bits_to_bytes nr_bits * 8) - nr_bits
  let write_to := base + (if right_justified then free_bits else 0)
  bit_range_copy_chk src from_ write_to nr_bits dst

/-- The bit indices the loop of `bit_range_extract` uses in its first `n` iterations: those
it tests in `src` (`is_bit_set_u8(src, from)`) and those it sets in `dst`
(`bit_set_u8(dst, write_to)`). -/
def bit_range_copy_trace (src : List Nat) (from_ write_to : Nat) : Nat → List Nat × List Nat
  | 0 => ([], [])
  | n + 1 =>
    let t := bit_range_copy_trace src from_ write_to n
    (t.1 ++ [from_ + n],
     if is_bit_set_u8 src (from_ + n) then t.2 ++ [write_to + n] else t.2)

/-- The bit indices a call of `bit_range_extract` tests in `src` and sets in `dst`. -/
def bit_range_extract_trace (base : Nat) (src : List Nat) (from_ to_ : Nat)
    (right_justified : Bool) : List Nat × List Nat :=
  let nr_bits := to_ - from_
  let free_bits := (bits_to_bytes nr_bits * 8) - nr_bits
  let write_to := base + (if right_justified then free_bits else 0)
  bit_range_copy_trace src from_ write_to nr_bits

/-- The byte-reversal loops after `n` iterations, accesses checked. -/
def reverse_bytes_chk (m : List Nat) : Nat → Option (List Nat)
  | 0 => some m
  | n + 1 =>
    (reverse_bytes_chk m n).bind fun m' => m'[n]?.map fun v => m'.set n (u8_reverse_bits v)

/-- Function `bip39_mnemonic_word`, the index into the 2048-entry table checked. -/
def bip39_mnemonic_word_chk (tbl : Nat → CStr) (bits : Int) : Option (Option CStr) :=
  if Int.land bits (~~~ (0x7ff : Int)) ≠ 0 then some none
  else if 0 ≤ bits ∧ bits < 2048 then some (some (tbl bits.toNat)) else none

/-- The word loop of the encoder after `n` iterations, accesses checked. -/
def encode_words_chk (tbl : Nat → CStr) (kwc : List Nat) :
    Nat → List (Option CStr) → Option (List (Option CStr) × Bool)
  | 0, words => some (words, false)
  | i + 1, words =>
    (encode_words_chk tbl kwc i words).bind fun st =>
    if st.2 then some st
    else
      (bit_range_extract_chk [0, 0] 0 kwc (11 * i) (11 * (i + 1)) true).bind
        fun mnemonic_bits =>
      mnemonic_bits[0]?.bind fun b0 =>
      mnemonic_bits[1]?.bind fun b1 =>
      let bits : Nat := (u8_reverse_bits b0 <<< 8) ||| u8_reverse_bits b1
      (bip39_mnemonic_word_chk tbl (bits : Int)).bind fun w =>
      if i < st.1.length then some (st.1.set i w, w.isNone) else none

/-- Function `bip39_key_to_mnemonic_words`, accesses checked: `memcpy` reads `key_len` bytes
of `key`, `digest[0]` is read, and the loops are the checked ones. -/
def bip39_key_to_mnemonic_words_chk (tbl : Nat → CStr) (sha : List Nat → List Nat)
    (key : List Nat) (key_len : Int) (words : List (Option CStr)) (nr_words_in : Int) :
    Option EncodeOut :=
  let nr_words : Int := Int.tdiv (wrap_int (wrap_int (key_len * 8) + 10)) 11
  if key_len < 16 ∨ key_len > 32 ∨ Int.tmod (key_len * 8) 32 ≠ 0 then
    some ⟨-1, words, nr_words_in⟩
  else if key.length < key_len.toNat then none
  else
    (sha (key.take key_len.toNat))[0]?.bind fun d0 =>
    (reverse_bytes_chk (key.take key_len.toNat ++ [d0]) (key_len + 1).toNat).bind
      fun key_with_checksum =>
    (encode_words_chk tbl key_with_checksum nr_words.toNat words).map fun st =>
      if st.2 then ⟨-2, st.1, nr_words_in⟩ else ⟨0, st.1, nr_words⟩

/-- The word loop of the decoder after `n` iterations, accesses checked; `none` also when a
lookup does not terminate. -/
def decode_words_chk (tbl : Nat → CStr) (words : List CStr) : Nat → Option (List Nat × Nat)
  | 0 => some (List.replicate 33 0, 0)
  | i + 1 =>
    (decode_words_chk tbl words i).bind fun st =>
    words[i]?.bind fun word =>
    (bip39_mnemonic_word_to_bits tbl word).bind fun bits =>
      let bits : Nat := u16_reverse_bits (to_u16 bits) >>> 5
      let mnemonic_bits : List Nat := [0, 0]
      let mnemonic_bits := mnemonic_bits.set 1 ((bits >>> 8) &&& 0xff)
      let mnemonic_bits := mnemonic_bits.set 0 (bits &&& 0xff)
      (bit_range_extract_chk st.1 (11 * i) mnemonic_bits 0 11 false).map fun kwc =>
        (kwc, st.2 + 1)

/-- Function `bip39_key_from_mnemonic_words`, accesses checked: the loops are the checked
ones, `memcpy` writes `key_len` bytes of `key`, and `key_with_checksum[key_len]` is read. -/
def bip39_key_from_mnemonic_words_chk (tbl : Nat → CStr) (sha : List Nat → List Nat)
    (words : List CStr) (nr_words : Int) (key_in : List Nat) (key_len_in : Int) :
    Option DecodeOut :=
  let key_len : Int := Int.tdiv (wrap_int (wrap_int (nr_words * 11) - 1)) 8
  let checksum_len : Int := wrap_int (wrap_int (nr_words * 11) - wrap_int (key_len * 8))
  if nr_words ≠ 12 ∧ nr_words ≠ 15 ∧ nr_words ≠ 18 ∧ nr_words ≠ 21 ∧ nr_words ≠ 24 then
    some ⟨-1, key_in, key_len_in, 0⟩
  else
    (decode_words_chk tbl words nr_words.toNat).bind fun st =>
    (reverse_bytes_chk st.1 (key_len + 1).toNat).bind fun key_with_checksum =>
    (sha (key_with_checksum.take key_len.toNat))[0]?.bind fun d0 =>
    if key_in.length < key_len.toNat ∨ key_with_checksum.length < key_len.toNat then none
    else
      key_with_checksum[key_len.toNat]?.map fun cs_byte =>
        let digest0 := (d0 &&&
          (bit_mask checksum_len.toNat <<< (8 - checksum_len).toNat)) % 256
        let key := key_with_checksum.take key_len.toNat ++ key_in.drop key_len.toNat
        if cs_byte ≠ digest0 then ⟨-2, key, key_len, st.2⟩
        else ⟨0, key, key_len, st.2⟩

/-! ## Bit-level lemmas -/

theorem testBit_mod_256 (x k : Nat) :
    (x % 256).testBit k = (decide (k < 8) && x.testBit k) :=
  Nat.testBit_mod_two_pow x 8 k

theorem testBit_mod_65536 (x k : Nat) :
    (x % 65536).testBit k = (decide (k < 16) && x.testBit k) :=
  Nat.testBit_mod_two_pow x 16 k

theorem testBit_const (c k : Nat) : c.testBit k = decide (c / 2 ^ k % 2 = 1) :=
  Nat.testBit_to_div_mod

theorem testBit_of_lt_256 {x k : Nat} (hx : x < 256) (hk : 8 ≤ k) : x.testBit k = false :=
  Nat.testBit_lt_two_pow (lt_of_lt_of_le hx (Nat.pow_le_pow_right (show 0 < 2 by norm_num) hk))

theorem u8_reverse_bits_lt (x : Nat) : u8_reverse_bits x < 256 := by
  unfold u8_reverse_bits
  exact Nat.mod_lt _ (by norm_num)

theorem u16_reverse_bits_lt (x : Nat) : u16_reverse_bits x < 65536 := by
  unfold u16_reverse_bits
  exact Nat.mod_lt _ (by norm_num)

theorem u8_reverse_bits_testBit_lt (x k : Nat) (hk : k < 8) :
    (u8_reverse_bits x).testBit k = x.testBit (7 - k) := by
  unfold u8_reverse_bits
  interval_cases k <;>
    simp +decide [testBit_mod_256, Nat.testBit_lor, Nat.testBit_land, Nat.testBit_shiftLeft,
      Nat.testBit_shiftRight, -Nat.testBit_zero, testBit_const 0xaa, testBit_const 0x55,
      testBit_const 0xcc, testBit_const 0x33]

theorem u8_reverse_bits_testBit (x k : Nat) :
    (u8_reverse_bits x).testBit k = (decide (k < 8) && x.testBit (7 - k)) := by
  by_cases hk : k < 8
  · simp [hk, u8_reverse_bits_testBit_lt x k hk]
  · simp [hk, testBit_of_lt_256 (u8_reverse_bits_lt x) (not_lt.mp hk)]

theorem u16_reverse_bits_testBit_lt (x k : Nat) (hk : k < 16) :
    (u16_reverse_bits x).testBit k = x.testBit (15 - k) := by
  unfold u16_reverse_bits
  interval_cases k <;>
    simp +decide [testBit_mod_65536, Nat.testBit_lor, Nat.testBit_land, Nat.testBit_shiftLeft,
      Nat.testBit_shiftRight, -Nat.testBit_zero, testBit_const 0xaaaa, testBit_const 0x5555,
      testBit_const 0xcccc, testBit_const 0x3333, testBit_const 0xf0f0, testBit_const 0x0f0f]

theorem u16_reverse_bits_testBit (x k : Nat) :
    (u16_reverse_bits x).testBit k = (decide (k < 16) && x.testBit (15 - k)) := by
  by_cases hk : k < 16
  · simp [hk, u16_reverse_bits_testBit_lt x k hk]
  · have h : (u16_reverse_bits x).testBit k = false :=
      Nat.testBit_lt_two_pow (lt_of_lt_of_le (u16_reverse_bits_lt x)
        (Nat.pow_le_pow_right (show 0 < 2 by norm_num) (not_lt.mp hk)))
    simp [hk, h]

theorem land_shift_beq (x k : Nat) : ((x &&& (1 <<< k)) == (1 <<< k)) = x.testBit k := by
  rw [Nat.one_shiftLeft, Nat.and_two_pow]
  cases h : x.testBit k <;> simp
  exact (Nat.two_pow_pos k).ne

theorem is_bit_set_u8_eq (m : List Nat) (b : Nat) : is_bit_set_u8 m b = buf_bit m b := by
  unfold is_bit_set_u8 buf_bit
  exact land_shift_beq _ _

theorem length_bit_set_u8 (m : List Nat) (b : Nat) : (bit_set_u8 m b).length = m.length := by
  simp [bit_set_u8]

theorem getD_set_eq {α : Type} (l : List α) (i j : Nat) (a d : α) :
    (l.set i a).getD j d = if i = j ∧ i < l.length then a else l.getD j d := by
  rw [List.getD_eq_getElem?_getD, List.getElem?_set, List.getD_eq_getElem?_getD]
  by_cases h : i = j
  · subst h
    by_cases h2 : i < l.length
    · simp [h2]
    · simp [h2, List.getElem?_eq_none (not_lt.mp h2)]
  · simp [h]

theorem buf_bit_bit_set_u8 (m : List Nat) (b p : Nat) (hb : b / 8 < m.length) :
    buf_bit (bit_set_u8 m b) p = (buf_bit m p || decide (p = b)) := by
  unfold buf_bit bit_set_u8
  rw [getD_set_eq]
  by_cases h : b / 8 = p / 8
  · have hp8 : p % 8 < 8 := Nat.mod_lt _ (by norm_num)
    simp only [h, true_and]
    rw [if_pos (h ▸ hb), testBit_mod_256, Nat.testBit_lor, Nat.one_shiftLeft,
      Nat.testBit_two_pow]
    simp only [hp8, decide_True, Bool.true_and]
    congr 1
    have : (b % 8 = p % 8) ↔ p = b := by omega
    simp [this]
  · have : ¬ p = b := fun e => h (by rw [e])
    simp [h, this]

theorem length_bit_range_copy (src : List Nat) (f w n : Nat) (dst : List Nat) :
    (bit_range_copy src f w n dst).length = dst.length := by
  induction n with
  | zero => rfl
  | succ n ih =>
    simp only [bit_range_copy]
    split
    · rw [length_bit_set_u8, ih]
    · exact ih

theorem buf_bit_bit_range_copy (src : List Nat) (f w n : Nat) (dst : List Nat) (p : Nat)
    (hn : w + n ≤ 8 * dst.length) :
    buf_bit (bit_range_copy src f w n dst) p =
      (buf_bit dst p || (decide (w ≤ p ∧ p < w + n) && buf_bit src (f + (p - w)))) := by
  induction n with
  | zero => simp [bit_range_copy]
  | succ n ih =>
    have ih := ih (by omega)
    simp only [bit_range_copy, is_bit_set_u8_eq]
    by_cases hp : p = w + n
    · subst hp
      cases hs : buf_bit src (f + n)
      · simp [ih, hs]
      · simp only [if_true]
        rw [buf_bit_bit_set_u8 _ _ _ (by rw [length_bit_range_copy]; omega)]
        simp [hs]
    · have hd : decide (w ≤ p ∧ p < w + (n + 1)) = decide (w ≤ p ∧ p < w + n) := by
        apply decide_eq_decide.mpr; omega
      rw [hd]
      split
      · rw [buf_bit_bit_set_u8 _ _ _ (by rw [length_bit_range_copy]; omega), ih]
        simp [hp]
      · exact ih

theorem length_reverse_bytes (m : List Nat) (n : Nat) :
    (reverse_bytes m n).length = m.length := by
  induction n with
  | zero => rfl
  | succ n ih => simp [reverse_bytes, ih]

theorem getD_reverse_bytes (m : List Nat) (n j : Nat) :
    (reverse_bytes m n).getD j 0 =
      if j < n ∧ j < m.length then u8_reverse_bits (m.getD j 0) else m.getD j 0 := by
  induction n with
  | zero => simp [reverse_bytes]
  | succ n ih =>
    simp only [reverse_bytes]
    rw [getD_set_eq, length_reverse_bytes]
    by_cases h : n = j
    · subst h
      have ih' : (reverse_bytes m n).getD n 0 = m.getD n 0 := by rw [ih]; simp
      rw [ih']
      by_cases h2 : n < m.length
      · rw [if_pos ⟨rfl, h2⟩, if_pos ⟨Nat.lt_succ_self n, h2⟩]
      · rw [if_neg (fun hh => h2 hh.2), if_neg (fun hh => h2 hh.2)]
    · rw [if_neg (fun hh => h hh.1), ih]
      have : (j < n + 1 ∧ j < m.length) ↔ (j < n ∧ j < m.length) := by omega
      simp only [this]

/-! ## Dictionary lemmas -/

theorem strcmp_self (s : CStr) : strcmp s s = 0 := by
  induction s with
  | nil => rfl
  | cons a s ih => simp [strcmp, ih]

theorem eq_of_strcmp_eq_zero : ∀ (s t : CStr), IsCStr s → IsCStr t → strcmp s t = 0 → s = t
  | [], [], _, _, _ => rfl
  | [], b :: t, _, ht, h => by
    have hb := (ht b (List.mem_cons_self b t)).1
    simp only [strcmp] at h
    omega
  | a :: s, [], hs, _, h => by
    have ha := (hs a (List.mem_cons_self a s)).1
    simp only [strcmp] at h
    omega
  | a :: s, b :: t, hs, ht, h => by
    simp only [strcmp] at h
    by_cases hab : a = b
    · rw [if_pos hab] at h
      have := eq_of_strcmp_eq_zero s t (fun x hx => hs x (List.mem_cons_of_mem a hx))
        (fun x hx => ht x (List.mem_cons_of_mem b hx)) h
      rw [hab, this]
    · rw [if_neg hab] at h
      omega

theorem strcmp_pos_of_neg : ∀ (s t : CStr), strcmp s t < 0 → 0 < strcmp t s
  | [], [], h => by simp [strcmp] at h
  | [], b :: t, h => by
    simp only [strcmp] at h ⊢
    omega
  | a :: s, [], h => by
    simp only [strcmp] at h
    omega
  | a :: s, b :: t, h => by
    simp only [strcmp] at h ⊢
    by_cases hab : a = b
    · rw [if_pos hab] at h
      rw [if_pos hab.symm]
      exact strcmp_pos_of_neg s t h
    · rw [if_neg hab] at h
      rw [if_neg (fun e => hab e.symm)]
      omega

theorem tdiv_two (a : Int) (ha : 0 ≤ a) : Int.tdiv a 2 = a / 2 :=
  Int.tdiv_eq_ediv ha (by norm_num)

/-- The search ends: with more fuel than `right - left` the loop returns. -/
theorem word_search_isSome (tbl : Nat → CStr) (word : CStr) :
    ∀ (fuel : Nat) (left right : Int), 0 ≤ left → (right - left).toNat < fuel →
      ∃ r, word_search tbl word fuel left right = some r := by
  intro fuel
  induction fuel with
  | zero => intro left right _ h; omega
  | succ fuel ih =>
    intro left right hl hf
    simp only [word_search]
    by_cases hlr : left < right
    · rw [if_pos hlr, tdiv_two _ (by omega)]
      split
      · exact ⟨_, rfl⟩
      · split
        · exact ih _ _ hl (by omega)
        · exact ih _ _ (by omega) (by omega)
    · rw [if_neg hlr]
      exact ⟨_, rfl⟩

/-- What the search returns is -1 or an index at which `strcmp` gave 0. -/
theorem word_search_sound (tbl : Nat → CStr) (word : CStr) :
    ∀ (fuel : Nat) (left right r : Int), 0 ≤ left →
      word_search tbl word fuel left right = some r →
      r = -1 ∨ (left ≤ r ∧ r < right ∧ strcmp word (tbl r.toNat) = 0) := by
  intro fuel
  induction fuel with
  | zero => intro left right r _ h; simp [word_search] at h
  | succ fuel ih =>
    intro left right r hl h
    simp only [word_search] at h
    by_cases hlr : left < right
    · rw [if_pos hlr, tdiv_two _ (by omega)] at h
      split at h
      · rename_i h0
        have hr : (left + right) / 2 = r := Option.some.inj h
        right
        rw [← hr]
        exact ⟨by omega, by omega, h0⟩
      · split at h
        · rcases ih _ _ _ hl h with h1 | ⟨h1, h2, h3⟩
          · exact Or.inl h1
          · exact Or.inr ⟨h1, by omega, h3⟩
        · rcases ih _ _ _ (by omega) h with h1 | ⟨h1, h2, h3⟩
          · exact Or.inl h1
          · exact Or.inr ⟨by omega, h2, h3⟩
    · rw [if_neg hlr] at h
      exact Or.inl (Option.some.inj h).symm

/-- On a sorted table the search finds entry `i` at `i`. -/
theorem word_search_entry (tbl : Nat → CStr) (hs : SortedTable tbl) (i : Nat) :
    ∀ (fuel : Nat) (left right : Int), 0 ≤ left → left ≤ i → (i : Int) < right →
      right ≤ 2048 → (right - left).toNat ≤ fuel →
      word_search tbl (tbl i) fuel left right = some (i : Int) := by
  intro fuel
  induction fuel with
  | zero => intro left right _ h1 h2 _ hf; omega
  | succ fuel ih =>
    intro left right hl h1 h2 hr hf
    simp only [word_search]
    rw [if_pos (by omega), tdiv_two _ (by omega)]
    have hm0 : 0 ≤ (left + right) / 2 := by omega
    obtain ⟨m, hm⟩ := Int.eq_ofNat_of_zero_le hm0
    rw [hm, Int.toNat_ofNat]
    rcases Nat.lt_trichotomy i m with hlt | heq | hgt
    · have hneg := hs.2 i m hlt (by omega)
      rw [if_neg (by omega), if_pos hneg]
      exact ih _ _ hl h1 (by omega) (by omega) (by omega)
    · subst heq
      rw [if_pos (strcmp_self _)]
    · have hpos := strcmp_pos_of_neg _ _ (hs.2 m i hgt (by omega))
      rw [if_neg (by omega), if_neg (by omega)]
      exact ih _ _ (by omega) (by omega) h2 hr (by omega)

theorem word_search_first (tbl : Nat → CStr) (word : CStr) (fuel : Nat) :
    word_search tbl word (fuel + 1) 0 2048 =
      if strcmp word (tbl 1024) = 0 then some 1024
      else if strcmp word (tbl 1024) < 0 then word_search tbl word fuel 0 1024
      else word_search tbl word fuel 1025 2048 := rfl

theorem bip39_mnemonic_word_to_bits_isSome (tbl : Nat → CStr) (word : CStr) :
    ∃ r, bip39_mnemonic_word_to_bits tbl word = some r := by
  unfold bip39_mnemonic_word_to_bits
  rw [show (2048 : Nat) = 2047 + 1 from rfl, word_search_first]
  split
  · exact ⟨_, rfl⟩
  · split
    · exact word_search_isSome tbl word _ _ _ (by norm_num) (by decide)
    · exact word_search_isSome tbl word _ _ _ (by decide) (by decide)

theorem bip39_mnemonic_word_to_bits_entry (tbl : Nat → CStr) (hs : SortedTable tbl)
    (i : Nat) (hi : i < 2048) : bip39_mnemonic_word_to_bits tbl (tbl i) = some (i : Int) :=
  word_search_entry tbl hs i 2048 0 2048 (le_refl _) (by omega) (by omega) (le_refl _)
    (by decide)

theorem bip39_mnemonic_word_to_bits_sound (tbl : Nat → CStr) (word : CStr) (r : Int)
    (h : bip39_mnemonic_word_to_bits tbl word = some r) :
    r = -1 ∨ (0 ≤ r ∧ r < 2048 ∧ strcmp word (tbl r.toNat) = 0) :=
  word_search_sound tbl word 2048 0 2048 r (le_refl _) h

theorem land_not_2047 (n : Nat) (hn : n < 2048) : Int.land (n : Int) (~~~ (0x7ff : Int)) = 0 := by
  have e : (~~~ (0x7ff : Int)) = Int.negSucc 2047 := rfl
  rw [e]
  show ((Nat.ldiff n 2047 : Nat) : Int) = 0
  have : Nat.ldiff n 2047 = 0 := by
    apply Nat.eq_of_testBit_eq
    intro k
    rw [Nat.testBit_ldiff, Nat.zero_testBit]
    by_cases hk : k < 11
    · have : Nat.testBit 2047 k = true := by interval_cases k <;> rfl
      simp [this]
    · have : n.testBit k = false :=
        Nat.testBit_lt_two_pow (lt_of_lt_of_le hn
          (Nat.pow_le_pow_right (show 0 < 2 by norm_num) (not_lt.mp hk)))
      simp [this]
  rw [this]; rfl

theorem bip39_mnemonic_word_of_lt (tbl : Nat → CStr) (n : Nat) (hn : n < 2048) :
    bip39_mnemonic_word tbl (n : Int) = some (tbl n) := by
  unfold bip39_mnemonic_word
  rw [if_neg (by rw [land_not_2047 n hn]; simp)]
  simp

theorem demo_tbl_sorted : SortedTable demo_tbl := by
  constructor
  · intro i hi b hb
    simp only [demo_tbl, List.mem_cons, List.mem_singleton, List.not_mem_nil, or_false] at hb
    omega
  · intro i j hij hj
    simp only [demo_tbl, strcmp]
    split
    · split
      · omega
      · omega
    · omega

theorem demo_sha_digest (m : List Nat) : IsDigest (demo_sha m) := by
  constructor
  · simp [demo_sha]
  · intro b hb
    simp only [demo_sha, List.mem_cons, List.mem_replicate] at hb
    omega

/-! ## Encoder lemmas -/

theorem be_value_append (m : List Nat) (b : Nat) :
    be_value (m ++ [b]) = 2 ^ 8 * be_value m + b := by
  simp [be_value, List.foldl_append, Nat.mul_comm]

theorem isBytes_append {m : List Nat} {b : Nat} (hm : IsBytes m) (hb : b < 256) :
    IsBytes (m ++ [b]) := by
  intro x hx
  rcases List.mem_append.mp hx with h | h
  · exact hm x h
  · rw [List.mem_singleton.mp h]; exact hb

/-- Bit `q` of the big-endian value of a byte string is bit `q % 8` of the byte `q / 8`
places from the end. -/
theorem testBit_be_value (m : List Nat) (hm : IsBytes m) (q : Nat) :
    (be_value m).testBit q =
      (decide (q < 8 * m.length) && (m.getD (m.length - 1 - q / 8) 0).testBit (q % 8)) := by
  induction m using List.reverseRecOn generalizing q with
  | nil => simp [be_value]
  | append_singleton l a ih =>
    have ha : a < 2 ^ 8 := hm a (by simp)
    have hl : IsBytes l := fun x hx => hm x (List.mem_append_left _ hx)
    rw [be_value_append, Nat.testBit_mul_pow_two_add _ ha]
    simp only [List.length_append, List.length_singleton]
    by_cases hq : q < 8
    · rw [if_pos hq]
      have e1 : l.length + 1 - 1 - q / 8 = l.length := by omega
      have e2 : q % 8 = q := Nat.mod_eq_of_lt hq
      have e3 : q < 8 * (l.length + 1) := by omega
      rw [e1, e2, List.getD_append_right _ _ _ _ (le_refl _)]
      simp [e3]
    · rw [if_neg hq, ih hl]
      by_cases hq2 : q < 8 * (l.length + 1)
      · have e1 : l.length + 1 - 1 - q / 8 = l.length - 1 - (q - 8) / 8 := by omega
        have e2 : (q - 8) % 8 = q % 8 := by omega
        have e3 : q - 8 < 8 * l.length := by omega
        have e4 : l.length - 1 - (q - 8) / 8 < l.length := by omega
        rw [e1, e2, List.getD_append _ _ _ _ e4]
        simp [e3, hq2]
      · have e3 : ¬ q - 8 < 8 * l.length := by omega
        simp [e3, hq2]

/-- After the per-byte reversal of a whole buffer, bit `p` in the macros' numbering is
bit `p` of the big-endian value counted from the most significant end. -/
theorem buf_bit_reverse_bytes (m : List Nat) (hm : IsBytes m) (p : Nat)
    (hp : p < 8 * m.length) :
    buf_bit (reverse_bytes m m.length) p = (be_value m).testBit (8 * m.length - 1 - p) := by
  unfold buf_bit
  have h8 : p % 8 < 8 := Nat.mod_lt _ (by norm_num)
  rw [getD_reverse_bytes, if_pos ⟨by omega, by omega⟩, u8_reverse_bits_testBit,
    testBit_be_value m hm]
  have e1 : m.length - 1 - (8 * m.length - 1 - p) / 8 = p / 8 := by omega
  have e2 : (8 * m.length - 1 - p) % 8 = 7 - p % 8 := by omega
  have e3 : 8 * m.length - 1 - p < 8 * m.length := by omega
  rw [e1, e2]
  simp [h8, e3]

theorem buf_bit_zeros (p : Nat) : buf_bit [0, 0] p = false := by
  unfold buf_bit
  have : ([0, 0] : List Nat).getD (p / 8) 0 = 0 := by
    rcases Nat.lt_or_ge (p / 8) 2 with h | h
    · interval_cases (p / 8) <;> rfl
    · exact List.getD_eq_default _ _ h
  rw [this, Nat.zero_testBit]

/-- The 11-bit group of iteration `i`: bit `j` of `bits` is bit `11 * i + 10 - j` of the
buffer, and `bits` has no bit above bit 10. -/
theorem testBit_group_value (kwc : List Nat) (i j : Nat) :
    (group_value kwc i).testBit j = (decide (j < 11) && buf_bit kwc (11 * i + 10 - j)) := by
  have hmb : ∀ p, buf_bit (bit_range_extract [0, 0] 0 kwc (11 * i) (11 * (i + 1)) true) p =
      (decide (5 ≤ p ∧ p < 16) && buf_bit kwc (11 * i + (p - 5))) := by
    intro p
    have e : 11 * (i + 1) - 11 * i = 11 := by omega
    simp only [bit_range_extract, e, bits_to_bytes]
    rw [buf_bit_bit_range_copy _ _ _ _ _ _ (by simp), buf_bit_zeros]
    simp
  unfold group_value
  simp only [Nat.testBit_lor, Nat.testBit_shiftLeft, u8_reverse_bits_testBit]
  have h0 : ∀ t, t < 8 → ((bit_range_extract [0, 0] 0 kwc (11 * i) (11 * (i + 1)) true).getD
      0 0).testBit t = (decide (5 ≤ t) && buf_bit kwc (11 * i + (t - 5))) := by
    intro t ht
    have e : ((bit_range_extract [0, 0] 0 kwc (11 * i) (11 * (i + 1)) true).getD
        0 0).testBit t =
        buf_bit (bit_range_extract [0, 0] 0 kwc (11 * i) (11 * (i + 1)) true) t := by
      unfold buf_bit
      rw [show t / 8 = 0 by omega, show t % 8 = t by omega]
    rw [e, hmb]
    congr 1
    apply decide_eq_decide.mpr; omega
  have h1 : ∀ t, t < 8 → ((bit_range_extract [0, 0] 0 kwc (11 * i) (11 * (i + 1)) true).getD
      1 0).testBit t = buf_bit kwc (11 * i + (t + 3)) := by
    intro t ht
    have e : ((bit_range_extract [0, 0] 0 kwc (11 * i) (11 * (i + 1)) true).getD
        1 0).testBit t =
        buf_bit (bit_range_extract [0, 0] 0 kwc (11 * i) (11 * (i + 1)) true) (8 + t) := by
      unfold buf_bit
      rw [show (8 + t) / 8 = 1 by omega, show (8 + t) % 8 = t by omega]
    rw [e, hmb, show 8 + t - 5 = t + 3 by omega]
    have : (5 ≤ 8 + t ∧ 8 + t < 16) := by omega
    simp [this]
  by_cases hj : j < 8
  · rw [h1 _ (by omega)]
    have e1 : ¬ j ≥ 8 := by omega
    have e2 : j < 11 := by omega
    have e3 : 11 * i + (7 - j + 3) = 11 * i + 10 - j := by omega
    simp [e1, e2, hj, e3]
  · by_cases hj2 : j < 11
    · rw [h0 _ (by omega)]
      have e1 : j ≥ 8 := by omega
      have e2 : j - 8 < 8 := by omega
      have e3 : 11 * i + (7 - (j - 8) - 5) = 11 * i + 10 - j := by omega
      have e4 : 5 ≤ 7 - (j - 8) := by omega
      simp [e1, e2, hj, hj2, e3, e4]
    · by_cases hj3 : j < 16
      · rw [h0 _ (by omega)]
        have e1 : j ≥ 8 := by omega
        have e2 : j - 8 < 8 := by omega
        have e4 : ¬ 5 ≤ 7 - (j - 8) := by omega
        simp [e1, e2, hj, hj2, e4]
      · have e2 : ¬ j - 8 < 8 := by omega
        simp [e2, hj, hj2]

theorem group_value_lt (kwc : List Nat) (i : Nat) : group_value kwc i < 2048 := by
  apply Nat.lt_pow_two_of_testBit (n := 11)
  intro j hj
  rw [testBit_group_value]
  have : ¬ j < 11 := by omega
  simp [this]

/-- On the reversed buffer of `m`, group `i` is the 11-bit field of the big-endian value
of `m` that ends `8 * len - 11 * (i + 1)` bits above the least significant bit. -/
theorem group_value_reverse_bytes (m : List Nat) (hm : IsBytes m) (i : Nat)
    (hi : 11 * (i + 1) ≤ 8 * m.length) :
    group_value (reverse_bytes m m.length) i =
      (be_value m >>> (8 * m.length - 11 * (i + 1))) % 2048 := by
  apply Nat.eq_of_testBit_eq
  intro j
  rw [testBit_group_value, Nat.testBit_mod_two_pow _ 11, Nat.testBit_shiftRight]
  by_cases hj : j < 11
  · rw [buf_bit_reverse_bytes m hm _ (by omega)]
    have e : 8 * m.length - 1 - (11 * i + 10 - j) = 8 * m.length - 11 * (i + 1) + j := by
      omega
    rw [e]
  · simp [hj]

theorem encode_words_succ (tbl : Nat → CStr) (kwc : List Nat) (i : Nat)
    (words : List (Option CStr)) :
    encode_words tbl kwc (i + 1) words =
      if (encode_words tbl kwc i words).2 then encode_words tbl kwc i words
      else ((encode_words tbl kwc i words).1.set i
              (bip39_mnemonic_word tbl (group_value kwc i : Nat)),
            (bip39_mnemonic_word tbl (group_value kwc i : Nat)).isNone) := rfl

/-- The word loop never leaves through `return -2`; after `n` iterations entries
`0 .. n-1` of `words` hold the table entries of the groups and the rest is untouched. -/
theorem encode_words_spec (tbl : Nat → CStr) (kwc : List Nat) (words : List (Option CStr))
    (n : Nat) :
    (encode_words tbl kwc n words).2 = false ∧
    (encode_words tbl kwc n words).1.length = words.length ∧
    ∀ i, (encode_words tbl kwc n words).1.getD i none =
      if i < n ∧ i < words.length then some (tbl (group_value kwc i))
      else words.getD i none := by
  induction n with
  | zero => simp [encode_words]
  | succ n ih =>
    obtain ⟨h1, h2, h3⟩ := ih
    rw [encode_words_succ, h1]
    simp only [Bool.false_eq_true, if_false,
      bip39_mnemonic_word_of_lt tbl _ (group_value_lt kwc n)]
    refine ⟨rfl, by simp [h2], ?_⟩
    intro i
    rw [getD_set_eq, h2]
    by_cases hin : n = i
    · subst hin
      by_cases hl : n < words.length
      · rw [if_pos ⟨rfl, hl⟩, if_pos ⟨Nat.lt_succ_self n, hl⟩]
      · rw [if_neg (fun hh => hl hh.2), h3 n, if_neg (fun hh => hl hh.2),
          if_neg (fun hh => hl hh.2)]
    · rw [if_neg (fun hh => hin hh.1), h3 i]
      have : (i < n + 1 ∧ i < words.length) ↔ (i < n ∧ i < words.length) := by omega
      simp only [this]

theorem wrap_int_of_small (x : Int) (h1 : -2147483648 ≤ x) (h2 : x < 2147483648) :
    wrap_int x = x := by
  unfold wrap_int; omega

theorem nr_words_of_key_len (L : Nat) (h : L ≤ 32) :
    Int.tdiv (wrap_int (wrap_int ((L : Int) * 8) + 10)) 11 = (((8 * L + 10) / 11 : Nat) : Int) := by
  have e1 : wrap_int ((L : Int) * 8) = (L : Int) * 8 :=
    wrap_int_of_small _ (by omega) (by omega)
  rw [e1, wrap_int_of_small _ (by omega) (by omega),
    Int.tdiv_eq_ediv (by omega) (by norm_num)]
  omega

theorem key_len_check (key_len : Int) :
    (key_len < 16 ∨ key_len > 32 ∨ Int.tmod (key_len * 8) 32 ≠ 0) ↔
      ¬ (key_len = 16 ∨ key_len = 20 ∨ key_len = 24 ∨ key_len = 28 ∨ key_len = 32) := by
  by_cases h : key_len < 16 ∨ key_len > 32
  · constructor
    · intro _; omega
    · intro _; rcases h with h | h
      · exact Or.inl h
      · exact Or.inr (Or.inl h)
  · have e : Int.tmod (key_len * 8) 32 = (key_len * 8) % 32 :=
      Int.tmod_eq_emod (by omega) (by norm_num)
    rw [e]
    omega

theorem digest_head_lt {d : List Nat} (hd : IsDigest d) : d.getD 0 0 < 256 := by
  obtain ⟨hl, hb⟩ := hd
  match d, hl, hb with
  | b :: _, _, hb => exact hb b (List.mem_cons_self _ _)

theorem isBytes_take {m : List Nat} (hm : IsBytes m) (n : Nat) : IsBytes (m.take n) :=
  fun b hb => hm b (List.mem_of_mem_take hb)

/-- The encoder on a key of valid length: it returns 0, and `words` is what the word
loop leaves on the reversed buffer of `key ‖ digest[0]`. -/
theorem encode_of_valid (tbl : Nat → CStr) (sha : List Nat → List Nat) (key : List Nat)
    (words : List (Option CStr)) (nw0 : Int) (hL : ValidKeyLen key.length) :
    bip39_key_to_mnemonic_words tbl sha key (key.length : Int) words nw0 =
      ⟨0, (encode_words tbl
            (reverse_bytes (key ++ [(sha key).getD 0 0]) (key ++ [(sha key).getD 0 0]).length)
            ((8 * key.length + 10) / 11) words).1,
        (((8 * key.length + 10) / 11 : Nat) : Int)⟩ := by
  have hle : key.length ≤ 32 := by unfold ValidKeyLen at hL; omega
  have hc : ¬ ((key.length : Int) < 16 ∨ (key.length : Int) > 32 ∨
      Int.tmod ((key.length : Int) * 8) 32 ≠ 0) := by
    rw [key_len_check]
    unfold ValidKeyLen at hL
    omega
  unfold bip39_key_to_mnemonic_words
  simp only [nr_words_of_key_len _ hle, if_neg hc, Int.toNat_ofNat, List.take_length,
    (encode_words_spec tbl _ words _).1, Bool.false_eq_true, if_false]
  have e : ((key.length : Int) + 1).toNat = (key ++ [(sha key).getD 0 0]).length := by
    simp only [List.length_append, List.length_singleton]
    omega
  rw [e]

/-! ## Decoder lemmas -/

theorem index_concat_succ (x : Nat → Nat) (n : Nat) :
    index_concat x (n + 1) = 2 ^ 11 * index_concat x n + x n := by
  unfold index_concat
  rw [Finset.sum_range_succ, Finset.mul_sum]
  congr 1
  · apply Finset.sum_congr rfl
    intro i hi
    have hi' : i < n := Finset.mem_range.mp hi
    have e : 11 * (n + 1 - 1 - i) = 11 + 11 * (n - 1 - i) := by omega
    rw [e, pow_add]
    ring
  · have e : 11 * (n + 1 - 1 - n) = 0 := by omega
    rw [e]
    simp

/-- Bit `q` of the concatenation of `n` indices is bit `q % 11` of the index `q / 11`
places from the end. -/
theorem testBit_index_concat (x : Nat → Nat) (n : Nat) (hx : ∀ i, i < n → x i < 2048)
    (q : Nat) :
    (index_concat x n).testBit q =
      (decide (q < 11 * n) && (x (n - 1 - q / 11)).testBit (q % 11)) := by
  induction n generalizing q with
  | zero => simp [index_concat]
  | succ n ih =>
    have hxn : x n < 2 ^ 11 := hx n (Nat.lt_succ_self n)
    rw [index_concat_succ, Nat.testBit_mul_pow_two_add _ hxn]
    by_cases hq : q < 11
    · rw [if_pos hq]
      have e1 : n + 1 - 1 - q / 11 = n := by omega
      have e2 : q % 11 = q := Nat.mod_eq_of_lt hq
      have e3 : q < 11 * (n + 1) := by omega
      rw [e1, e2]
      simp [e3]
    · rw [if_neg hq, ih (fun i hi => hx i (by omega))]
      have e2 : (q - 11) % 11 = q % 11 := by omega
      have e4 : decide (q - 11 < 11 * n) = decide (q < 11 * (n + 1)) := by
        apply decide_eq_decide.mpr; omega
      rw [e2, e4]
      by_cases hq2 : q < 11 * (n + 1)
      · have e1 : n + 1 - 1 - q / 11 = n - 1 - (q - 11) / 11 := by omega
        rw [e1]
      · simp [hq2]

theorem index_concat_lt (x : Nat → Nat) (n : Nat) (hx : ∀ i, i < n → x i < 2048) :
    index_concat x n < 2 ^ (11 * n) := by
  apply Nat.lt_pow_two_of_testBit
  intro q hq
  rw [testBit_index_concat x n hx]
  have : ¬ q < 11 * n := by omega
  simp [this]

theorem to_u16_natCast (x : Nat) (hx : x < 65536) : to_u16 (x : Int) = x := by
  unfold to_u16; omega

theorem to_u16_neg_one : to_u16 (-1) = 65535 := by decide

/-- The 16-bit reversal shifted right by 5 is the reversal of the low 11 bits. -/
theorem testBit_reverse11 (x k : Nat) :
    (u16_reverse_bits x >>> 5).testBit k = (decide (k < 11) && x.testBit (10 - k)) := by
  rw [Nat.testBit_shiftRight, u16_reverse_bits_testBit]
  by_cases hk : k < 11
  · have e1 : 5 + k < 16 := by omega
    have e2 : 15 - (5 + k) = 10 - k := by omega
    simp [hk, e1, e2]
  · have hk2 : ¬ 5 + k < 16 := by omega
    simp [hk, hk2]

theorem testBit_2047 (k : Nat) : Nat.testBit 2047 k = decide (k < 11) :=
  Nat.testBit_two_pow_sub_one 11 k

theorem testBit_65535 (k : Nat) : Nat.testBit 65535 k = decide (k < 16) :=
  Nat.testBit_two_pow_sub_one 16 k

/-- The value placed for a lookup result: its index reversed in 11 bits, and for -1 the
reversal of 2047. -/
theorem testBit_placed (bits : Int) (hb : bits = -1 ∨ (0 ≤ bits ∧ bits < 2048)) (k : Nat) :
    (u16_reverse_bits (to_u16 bits) >>> 5).testBit k =
      (decide (k < 11) && (if bits = -1 then 2047 else bits.toNat).testBit (10 - k)) := by
  rw [testBit_reverse11]
  by_cases h : bits = -1
  · rw [if_pos h, h, to_u16_neg_one, testBit_2047, testBit_65535]
    by_cases hk : k < 11
    · have e1 : 10 - k < 16 := by omega
      have e2 : 10 - k < 11 := by omega
      simp [e1, e2]
    · simp [hk]
  · rw [if_neg h]
    have e : to_u16 bits = bits.toNat := by
      unfold to_u16; omega
    rw [e]

theorem buf_bit_pair (r p : Nat) :
    buf_bit [r &&& 0xff, (r >>> 8) &&& 0xff] p = (decide (p < 16) && r.testBit p) := by
  unfold buf_bit
  have h255 : ∀ k, Nat.testBit 255 k = decide (k < 8) := Nat.testBit_two_pow_sub_one 8
  have hp8 : p % 8 < 8 := Nat.mod_lt _ (by norm_num)
  rcases Nat.lt_or_ge p 8 with h | h
  · rw [show p / 8 = 0 by omega, show p % 8 = p by omega]
    have : p < 16 := by omega
    simp [Nat.testBit_land, h255, h, this]
  · rcases Nat.lt_or_ge p 16 with h2 | h2
    · rw [show p / 8 = 1 by omega]
      have e : 8 + p % 8 = p := by omega
      simp [Nat.testBit_land, Nat.testBit_shiftRight, h255, hp8, h2, e]
    · have : ¬ p < 16 := by omega
      rw [List.getD_eq_default _ _ (by simp; omega)]
      simp [this]

theorem decode_words_succ (tbl : Nat → CStr) (words : List CStr) (i : Nat) :
    decode_words tbl words (i + 1) =
      (decode_words tbl words i).bind fun st =>
      (bip39_mnemonic_word_to_bits tbl (words.getD i [])).map fun bits =>
        (bit_range_extract st.1 (11 * i)
          [(u16_reverse_bits (to_u16 bits) >>> 5) &&& 0xff,
           ((u16_reverse_bits (to_u16 bits) >>> 5) >>> 8) &&& 0xff] 0 11 false, st.2 + 1) :=
  rfl

theorem word_value_lt (tbl : Nat → CStr) (words : List CStr) (i : Nat) :
    word_value tbl words i < 2048 := by
  unfold word_value
  cases h : bip39_mnemonic_word_to_bits tbl (words.getD i []) with
  | none => simp
  | some r =>
    simp only
    rcases bip39_mnemonic_word_to_bits_sound tbl _ r h with h1 | ⟨h1, h2, _⟩
    · rw [if_pos h1]; norm_num
    · split
      · norm_num
      · omega

/-- The word loop of the decoder returns; after `n ≤ 24` iterations it has made `n`
lookups and bit `p` of the buffer (macros' numbering) is bit `10 - p % 11` of the value
of word `p / 11`, the bits from `11 * n` on being still zero. -/
theorem decode_words_spec (tbl : Nat → CStr) (words : List CStr) (n : Nat) (hn : n ≤ 24) :
    ∃ kwc, decode_words tbl words n = some (kwc, n) ∧ kwc.length = 33 ∧
      ∀ p, buf_bit kwc p =
        (decide (p < 11 * n) && (word_value tbl words (p / 11)).testBit (10 - p % 11)) := by
  induction n with
  | zero =>
    refine ⟨List.replicate 33 0, rfl, by simp, ?_⟩
    intro p
    unfold buf_bit
    have : (List.replicate 33 0).getD (p / 8) 0 = 0 := by
      rw [List.getD_eq_getElem?_getD, List.getElem?_replicate]
      split <;> rfl
    rw [this]
    simp
  | succ n ih =>
    obtain ⟨kwc, h1, h2, h3⟩ := ih (by omega)
    obtain ⟨r, hr⟩ := bip39_mnemonic_word_to_bits_isSome tbl (words.getD n [])
    have hsound : r = -1 ∨ (0 ≤ r ∧ r < 2048) := by
      rcases bip39_mnemonic_word_to_bits_sound tbl _ r hr with h | ⟨h, h', _⟩
      · exact Or.inl h
      · exact Or.inr ⟨h, h'⟩
    have hwv : word_value tbl words n = if r = -1 then 2047 else r.toNat := by
      unfold word_value; rw [hr]
    rw [decode_words_succ, h1, hr]
    refine ⟨_, rfl, ?_, ?_⟩
    · simp only [bit_range_extract]
      rw [length_bit_range_copy, h2]
    · intro p
      simp only [bit_range_extract, Nat.sub_zero, if_false, Bool.false_eq_true, Nat.add_zero]
      rw [buf_bit_bit_range_copy _ _ _ _ _ _ (by rw [h2]; omega), h3 p, buf_bit_pair,
        testBit_placed r hsound, ← hwv]
      by_cases hp : p < 11 * n
      · have e1 : p < 11 * (n + 1) := by omega
        have e2 : ¬ (11 * n ≤ p ∧ p < 11 * n + 11) := by omega
        simp [hp, e1, e2]
      · by_cases hp2 : p < 11 * (n + 1)
        · have e2 : (11 * n ≤ p ∧ p < 11 * n + 11) := by omega
          have e3 : 0 + (p - 11 * n) = p % 11 := by omega
          have e4 : p / 11 = n := by omega
          have e5 : p % 11 < 16 := by omega
          have e6 : p % 11 < 11 := by omega
          simp [hp, hp2, e2, e3, e4, e5, e6]
        · have e2 : ¬ (11 * n ≤ p ∧ p < 11 * n + 11) := by omega
          simp [hp, hp2, e2]

theorem getD_take (l : List Nat) (n j : Nat) (h : j < n) :
    (l.take n).getD j 0 = l.getD j 0 := by
  rw [List.getD_eq_getElem?_getD, List.getElem?_take, if_pos h, List.getD_eq_getElem?_getD]

theorem key_len_of_nr_words (n : Nat) (h1 : 1 ≤ n) (h2 : n ≤ 24) :
    Int.tdiv (wrap_int (wrap_int ((n : Int) * 11) - 1)) 8 = (((11 * n - 1) / 8 : Nat) : Int) := by
  have e1 : wrap_int ((n : Int) * 11) = (n : Int) * 11 :=
    wrap_int_of_small _ (by omega) (by omega)
  rw [e1, wrap_int_of_small _ (by omega) (by omega),
    Int.tdiv_eq_ediv (by omega) (by norm_num)]
  omega

theorem checksum_len_of_nr_words (n : Nat) (h1 : 1 ≤ n) (h2 : n ≤ 24) :
    wrap_int (wrap_int ((n : Int) * 11) - wrap_int ((((11 * n - 1) / 8 : Nat) : Int) * 8)) =
      ((11 * n - 8 * ((11 * n - 1) / 8) : Nat) : Int) := by
  have e1 : wrap_int ((n : Int) * 11) = (n : Int) * 11 :=
    wrap_int_of_small _ (by omega) (by omega)
  have e2 : wrap_int ((((11 * n - 1) / 8 : Nat) : Int) * 8) = (((11 * n - 1) / 8 : Nat) : Int) * 8 :=
    wrap_int_of_small _ (by omega) (by omega)
  rw [e1, e2, wrap_int_of_small _ (by omega) (by omega)]
  omega

/-- The decoder on a valid word count: the code after the guard, with `key_len` and
`checksum_len` as natural numbers. -/
theorem decode_of_valid (tbl : Nat → CStr) (sha : List Nat → List Nat) (words : List CStr)
    (n : Nat) (key_in : List Nat) (kl0 : Int) (hn : ValidWordCount n) :
    bip39_key_from_mnemonic_words tbl sha words (n : Int) key_in kl0 =
      (decode_words tbl words n).map fun st =>
        if (reverse_bytes st.1 ((11 * n - 1) / 8 + 1)).getD ((11 * n - 1) / 8) 0 ≠
            ((sha ((reverse_bytes st.1 ((11 * n - 1) / 8 + 1)).take ((11 * n - 1) / 8))).getD 0 0
              &&& (bit_mask (11 * n - 8 * ((11 * n - 1) / 8)) <<<
                    (8 - (11 * n - 8 * ((11 * n - 1) / 8))))) % 256 then
          ⟨-2, (reverse_bytes st.1 ((11 * n - 1) / 8 + 1)).take ((11 * n - 1) / 8) ++
                key_in.drop ((11 * n - 1) / 8), (((11 * n - 1) / 8 : Nat) : Int), st.2⟩
        else
          ⟨0, (reverse_bytes st.1 ((11 * n - 1) / 8 + 1)).take ((11 * n - 1) / 8) ++
                key_in.drop ((11 * n - 1) / 8), (((11 * n - 1) / 8 : Nat) : Int), st.2⟩ := by
  have h1 : 1 ≤ n := by unfold ValidWordCount at hn; omega
  have h2 : n ≤ 24 := by unfold ValidWordCount at hn; omega
  have hc : ¬ ((n : Int) ≠ 12 ∧ (n : Int) ≠ 15 ∧ (n : Int) ≠ 18 ∧ (n : Int) ≠ 21 ∧
      (n : Int) ≠ 24) := by
    unfold ValidWordCount at hn; omega
  have e3 : ((((11 * n - 1) / 8 : Nat) : Int) + 1).toNat = (11 * n - 1) / 8 + 1 := by omega
  have e4 : ((8 : Int) - ((11 * n - 8 * ((11 * n - 1) / 8) : Nat) : Int)).toNat =
      8 - (11 * n - 8 * ((11 * n - 1) / 8)) := by omega
  unfold bip39_key_from_mnemonic_words
  simp only [key_len_of_nr_words n h1 h2, checksum_len_of_nr_words n h1 h2, if_neg hc,
    Int.toNat_ofNat, e3, e4]

/-- In terms of the concatenation `X` of the word values: bit `p` of the decoder's buffer is
bit `11 * n - 1 - p` of `X`. -/
theorem decode_buffer_bit (tbl : Nat → CStr) (words : List CStr) (n : Nat) (kwc : List Nat)
    (h3 : ∀ p, buf_bit kwc p =
      (decide (p < 11 * n) && (word_value tbl words (p / 11)).testBit (10 - p % 11)))
    (p : Nat) :
    buf_bit kwc p =
      (decide (p < 11 * n) &&
        (index_concat (word_value tbl words) n).testBit (11 * n - 1 - p)) := by
  rw [h3 p, testBit_index_concat _ n (fun i _ => word_value_lt tbl words i)]
  by_cases hp : p < 11 * n
  · have e1 : 11 * n - 1 - p < 11 * n := by omega
    have e2 : n - 1 - (11 * n - 1 - p) / 11 = p / 11 := by omega
    have e3 : (11 * n - 1 - p) % 11 = 10 - p % 11 := by omega
    rw [e2, e3]
    simp [hp, e1]
  · simp [hp]

theorem testBit_reversed_byte (kwc : List Nat) (j m c : Nat) (hj : j < c)
    (hlen : j < kwc.length) :
    ((reverse_bytes kwc c).getD j 0).testBit m =
      (decide (m < 8) && buf_bit kwc (8 * j + 7 - m)) := by
  rw [getD_reverse_bytes, if_pos ⟨hj, hlen⟩, u8_reverse_bits_testBit]
  by_cases hm : m < 8
  · unfold buf_bit
    rw [show (8 * j + 7 - m) / 8 = j by omega, show (8 * j + 7 - m) % 8 = 7 - m by omega]
  · simp [hm]

/-- The statement of line 174 on a digest byte `d`: the low `8 - cs` bits are cleared. -/
theorem masked_digest (d cs : Nat) (hd : d < 256) (hcs : cs ≤ 8) :
    (d &&& (bit_mask cs <<< (8 - cs))) % 256 = (d >>> (8 - cs)) <<< (8 - cs) := by
  apply Nat.eq_of_testBit_eq
  intro m
  unfold bit_mask
  rw [testBit_mod_256, Nat.testBit_land, Nat.testBit_shiftLeft, Nat.testBit_shiftLeft,
    Nat.testBit_shiftRight, Nat.one_shiftLeft, Nat.testBit_two_pow_sub_one]
  by_cases hm : m < 8
  · by_cases hm2 : m ≥ 8 - cs
    · have e1 : m - (8 - cs) < cs + 1 := by omega
      have e2 : 8 - cs + (m - (8 - cs)) = m := by omega
      simp [hm, hm2, e1, e2]
    · simp [hm, hm2]
  · have : d.testBit m = false := testBit_of_lt_256 hd (by omega)
    by_cases hm2 : m ≥ 8 - cs
    · have e2 : 8 - cs + (m - (8 - cs)) = m := by omega
      simp [hm, hm2, e2, this]
    · simp [hm, hm2]

theorem shiftLeft_inj (a b k : Nat) : a <<< k = b <<< k ↔ a = b := by
  rw [Nat.shiftLeft_eq, Nat.shiftLeft_eq]
  exact Nat.mul_left_inj (Nat.two_pow_pos k).ne'

theorem shiftRight_lt (d cs : Nat) (hd : d < 256) (hcs : cs ≤ 8) :
    d >>> (8 - cs) < 2 ^ cs := by
  apply Nat.lt_pow_two_of_testBit
  intro m hm
  rw [Nat.testBit_shiftRight]
  exact testBit_of_lt_256 hd (by omega)

theorem decodeOut_ite (c : Prop) [Decidable c] (k : List Nat) (l : Int) (n : Nat) :
    (if c then (⟨-2, k, l, n⟩ : DecodeOut) else ⟨0, k, l, n⟩) =
      ⟨if c then -2 else 0, k, l, n⟩ := by
  split <;> rfl

/-- The decoder on a sentence of a valid word count `n`, with `L = (11 * n - 1) / 8`,
`cs = 11 * n - 8 * L` and `X` the concatenation of the values of the `n` words: it
returns, with 0 or -2; `*p_key_len` is `L`; key byte `j < L` is bits
`[11 * n - 8 * (j + 1), 11 * n - 8 * j)` of `X`; the bytes of `key` from `L` on are
untouched; and the return value is 0 exactly when the low `cs` bits of `X` are the top
`cs` bits of the first digest byte of the decoded key. -/
theorem decode_spec (tbl : Nat → CStr) (sha : List Nat → List Nat) (words : List CStr)
    (n : Nat) (key_in : List Nat) (kl0 : Int) (hn : ValidWordCount n) (L cs : Nat)
    (hL : L = (11 * n - 1) / 8) (hcs : cs = 11 * n - 8 * L) :
    ∃ r, bip39_key_from_mnemonic_words tbl sha words (n : Int) key_in kl0 = some r ∧
      r.key_len = (L : Int) ∧ r.lookups = n ∧ (r.rc = 0 ∨ r.rc = -2) ∧
      (r.key.take L).length = L ∧ r.key.drop L = key_in.drop L ∧
      (∀ j, j < L → r.key.getD j 0 =
        (index_concat (word_value tbl words) n >>> (11 * n - 8 * (j + 1))) % 256) ∧
      ((sha (r.key.take L)).getD 0 0 < 256 →
        (r.rc = 0 ↔ index_concat (word_value tbl words) n % 2 ^ cs =
          (sha (r.key.take L)).getD 0 0 >>> (8 - cs))) := by
  have hn24 : n ≤ 24 := by unfold ValidWordCount at hn; omega
  have hn1 : 1 ≤ n := by unfold ValidWordCount at hn; omega
  have hL32 : L ≤ 32 := by omega
  have hcs8 : cs ≤ 8 ∧ 1 ≤ cs := by omega
  obtain ⟨kwc, h1, h2, h3⟩ := decode_words_spec tbl words n hn24
  have hbit := decode_buffer_bit tbl words n kwc h3
  rw [decode_of_valid tbl sha words n key_in kl0 hn, h1, ← hL, ← hcs]
  simp only [Option.map_some', decodeOut_ite]
  have hKlen : ((reverse_bytes kwc (L + 1)).take L).length = L := by
    rw [List.length_take, length_reverse_bytes, h2]; omega
  have htake : ((reverse_bytes kwc (L + 1)).take L ++ key_in.drop L).take L =
      (reverse_bytes kwc (L + 1)).take L := List.take_left' hKlen
  have hdrop : ((reverse_bytes kwc (L + 1)).take L ++ key_in.drop L).drop L =
      key_in.drop L := List.drop_left' hKlen
  have hC : (reverse_bytes kwc (L + 1)).getD L 0 =
      (index_concat (word_value tbl words) n % 2 ^ cs) <<< (8 - cs) := by
    apply Nat.eq_of_testBit_eq
    intro m
    rw [testBit_reversed_byte kwc L m (L + 1) (by omega) (by omega), hbit,
      Nat.testBit_shiftLeft, Nat.testBit_mod_two_pow]
    by_cases hm : m < 8
    · by_cases hm2 : m ≥ 8 - cs
      · have e1 : 8 * L + 7 - m < 11 * n := by omega
        have e2 : 11 * n - 1 - (8 * L + 7 - m) = m - (8 - cs) := by omega
        have e3 : m - (8 - cs) < cs := by omega
        simp [hm, hm2, e1, e2, e3]
      · have e1 : ¬ 8 * L + 7 - m < 11 * n := by omega
        simp [hm, hm2, e1]
    · by_cases hm2 : m ≥ 8 - cs
      · have e3 : ¬ m - (8 - cs) < cs := by omega
        simp [hm, hm2, e3]
      · simp [hm, hm2]
  refine ⟨_, rfl, rfl, rfl, ?_, ?_, ?_, ?_, ?_⟩
  · dsimp only
    split
    · exact Or.inr rfl
    · exact Or.inl rfl
  · show (((reverse_bytes kwc (L + 1)).take L ++ key_in.drop L).take L).length = L
    rw [htake, hKlen]
  · exact hdrop
  · intro j hj
    show ((reverse_bytes kwc (L + 1)).take L ++ key_in.drop L).getD j 0 = _
    rw [List.getD_append _ _ _ _ (by rw [hKlen]; exact hj), getD_take _ _ _ hj]
    apply Nat.eq_of_testBit_eq
    intro m
    rw [testBit_reversed_byte kwc j m (L + 1) (by omega) (by omega), hbit, testBit_mod_256,
      Nat.testBit_shiftRight]
    by_cases hm : m < 8
    · have e1 : 8 * j + 7 - m < 11 * n := by omega
      have e2 : 11 * n - 1 - (8 * j + 7 - m) = 11 * n - 8 * (j + 1) + m := by omega
      simp [hm, e1, e2]
    · simp [hm]
  · dsimp only
    rw [htake]
    intro hd
    rw [masked_digest _ cs hd hcs8.1, hC]
    simp only [ne_eq, shiftLeft_inj]
    split
    · rename_i hne
      constructor
      · intro h; norm_num at h
      · intro h; exact absurd h hne
    · rename_i heq
      constructor
      · intro _; exact not_not.mp heq
      · intro _; rfl

theorem index_concat_congr (x y : Nat → Nat) (n : Nat) (h : ∀ i, i < n → x i = y i) :
    index_concat x n = index_concat y n := by
  unfold index_concat
  apply Finset.sum_congr rfl
  intro i hi
  rw [h i (Finset.mem_range.mp hi)]

/-- On a sorted table the value of a word that is table entry `k` is `k`. -/
theorem word_value_entry (tbl : Nat → CStr) (hs : SortedTable tbl) (words : List CStr)
    (i k : Nat) (hk : k < 2048) (hw : words.getD i [] = tbl k) :
    word_value tbl words i = k := by
  unfold word_value
  rw [hw, bip39_mnemonic_word_to_bits_entry tbl hs k hk]
  simp only
  rw [if_neg (by omega), Int.toNat_ofNat]

/-! ## Round-trip lemmas -/

theorem list_eq_of_getD (l1 l2 : List Nat) (hlen : l1.length = l2.length)
    (h : ∀ j, j < l1.length → l1.getD j 0 = l2.getD j 0) : l1 = l2 := by
  apply List.ext_getElem hlen
  intro j h1 h2
  have := h j h1
  rw [List.getD_eq_getElem _ _ h1, List.getD_eq_getElem _ _ h2] at this
  exact this

theorem be_value_lt (m : List Nat) (hm : IsBytes m) : be_value m < 2 ^ (8 * m.length) := by
  apply Nat.lt_pow_two_of_testBit
  intro q hq
  rw [testBit_be_value m hm]
  have : ¬ q < 8 * m.length := by omega
  simp [this]

/-- The concatenation of the first `n` groups of a value `N` of `w` bits is `N` without its
lowest `w - 11 * n` bits. -/
theorem index_concat_groups (N w n : Nat) (hN : N < 2 ^ w) (hn : 11 * n ≤ w) :
    index_concat (fun i => (N >>> (w - 11 * (i + 1))) % 2048) n = N >>> (w - 11 * n) := by
  apply Nat.eq_of_testBit_eq
  intro q
  rw [testBit_index_concat _ n (fun i _ => Nat.mod_lt _ (by norm_num))]
  simp only [Nat.testBit_mod_two_pow _ 11, Nat.testBit_shiftRight]
  by_cases hq : q < 11 * n
  · have e1 : q % 11 < 11 := Nat.mod_lt _ (by norm_num)
    have e2 : w - 11 * (n - 1 - q / 11 + 1) + q % 11 = w - 11 * n + q := by omega
    simp [hq, e1, e2]
  · have : N.testBit (w - 11 * n + q) = false :=
      Nat.testBit_lt_two_pow (lt_of_lt_of_le hN
        (Nat.pow_le_pow_right (show 0 < 2 by norm_num) (by omega)))
    simp [hq, this]

theorem getD_lt_of_isBytes (m : List Nat) (hm : IsBytes m) (j : Nat) : m.getD j 0 < 256 := by
  by_cases h : j < m.length
  · rw [List.getD_eq_getElem _ _ h]
    exact hm _ (List.getElem_mem _)
  · rw [List.getD_eq_default _ _ (not_lt.mp h)]
    norm_num

/-- Decoding the words of the groups of `key ‖ digest[0]` gives back `key` with return
value 0. -/
theorem decode_of_encoded (tbl : Nat → CStr) (sha : List Nat → List Nat) (key : List Nat)
    (ws : List CStr) (key_in : List Nat) (kl0 : Int) (hs : SortedTable tbl)
    (hL : ValidKeyLen key.length) (hk : IsBytes key) (hd : (sha key).getD 0 0 < 256)
    (hws : ∀ i, i < (8 * key.length + 10) / 11 → ws.getD i [] =
      tbl ((be_value (key ++ [(sha key).getD 0 0]) >>>
        (8 * (key.length + 1) - 11 * (i + 1))) % 2048)) :
    ∃ r, bip39_key_from_mnemonic_words tbl sha ws
        (((8 * key.length + 10) / 11 : Nat) : Int) key_in kl0 = some r ∧
      r.rc = 0 ∧ r.key_len = (key.length : Int) ∧ r.key.take key.length = key ∧
      r.key.drop key.length = key_in.drop key.length := by
  have hL' : key.length = 16 ∨ key.length = 20 ∨ key.length = 24 ∨ key.length = 28 ∨
      key.length = 32 := hL
  generalize hd0 : (sha key).getD 0 0 = d0 at hd hws ⊢
  generalize hndef : (8 * key.length + 10) / 11 = n at hws ⊢
  generalize hLdef : key.length = L at hws hL' ⊢
  have hvn : ValidWordCount n := by unfold ValidWordCount; omega
  have hLn : L = (11 * n - 1) / 8 := by omega
  have hn8 : 11 * n ≤ 8 * (L + 1) := by omega
  have hn1 : 8 * L < 11 * n := by omega
  have hlen : (key ++ [d0]).length = L + 1 := by simp [hLdef]
  have hbytes : IsBytes (key ++ [d0]) := isBytes_append hk hd
  have hN := be_value_lt _ hbytes
  rw [hlen] at hN
  have hNbit := testBit_be_value _ hbytes
  rw [hlen] at hNbit
  obtain ⟨r, hr, hkl, _, _, htl, hdrop, hkey, hiff⟩ :=
    decode_spec tbl sha ws n key_in kl0 hvn L (11 * n - 8 * L) hLn rfl
  have hX : index_concat (word_value tbl ws) n =
      be_value (key ++ [d0]) >>> (8 * (L + 1) - 11 * n) := by
    rw [← index_concat_groups _ (8 * (L + 1)) n hN hn8]
    apply index_concat_congr
    intro i hi
    exact word_value_entry tbl hs ws i _ (Nat.mod_lt _ (by norm_num)) (hws i hi)
  rw [hX] at hkey hiff
  have htake : r.key.take L = key := by
    apply list_eq_of_getD _ _ (by rw [htl, hLdef])
    intro j hj
    rw [htl] at hj
    rw [getD_take _ _ _ hj, hkey j hj]
    apply Nat.eq_of_testBit_eq
    intro m
    rw [testBit_mod_256, Nat.testBit_shiftRight, Nat.testBit_shiftRight, hNbit]
    by_cases hm : m < 8
    · have e1 : 8 * (L + 1) - 11 * n + (11 * n - 8 * (j + 1) + m) < 8 * (L + 1) := by omega
      have e2 : L + 1 - 1 - (8 * (L + 1) - 11 * n + (11 * n - 8 * (j + 1) + m)) / 8 = j := by
        omega
      have e3 : (8 * (L + 1) - 11 * n + (11 * n - 8 * (j + 1) + m)) % 8 = m := by omega
      rw [e2, e3, List.getD_append _ _ _ _ (by omega)]
      simp [hm, e1]
    · rw [testBit_of_lt_256 (getD_lt_of_isBytes key hk j) (by omega)]
      simp [hm]
  refine ⟨r, hr, ?_, hkl, htake, hdrop⟩
  rw [htake, hd0] at hiff
  apply (hiff hd).mpr
  apply Nat.eq_of_testBit_eq
  intro m
  rw [Nat.testBit_mod_two_pow, Nat.testBit_shiftRight, Nat.testBit_shiftRight, hNbit]
  by_cases hm : m < 11 * n - 8 * L
  · have e1 : 8 * (L + 1) - 11 * n + m < 8 * (L + 1) := by omega
    have e2 : L + 1 - 1 - (8 * (L + 1) - 11 * n + m) / 8 = L := by omega
    have e3 : (8 * (L + 1) - 11 * n + m) % 8 = 8 - (11 * n - 8 * L) + m := by omega
    rw [e2, e3, List.getD_append_right _ _ _ _ (by omega), show L - key.length = 0 by omega]
    simp [hm, e1]
  · rw [testBit_of_lt_256 hd (by omega)]
    simp [hm]

/-- Entry `i` of `words` after encoding a key of valid length: the table entry of the
`i`-th 11-bit group of `key ‖ digest[0]`. -/
theorem encode_word_entry (tbl : Nat → CStr) (sha : List Nat → List Nat) (key : List Nat)
    (words : List (Option CStr)) (nw0 : Int) (hL : ValidKeyLen key.length)
    (hk : IsBytes key) (hd : (sha key).getD 0 0 < 256) (hw : words.length = 24) (i : Nat)
    (hi : i < (8 * key.length + 10) / 11) :
    (bip39_key_to_mnemonic_words tbl sha key (key.length : Int) words nw0).words.getD i none =
      some (tbl ((be_value (key ++ [(sha key).getD 0 0]) >>>
        (8 * (key.length + 1) - 11 * (i + 1))) % 2048)) := by
  rw [encode_of_valid tbl sha key words nw0 hL]
  have hlen : (key ++ [(sha key).getD 0 0]).length = key.length + 1 := by simp
  have hL' : key.length = 16 ∨ key.length = 20 ∨ key.length = 24 ∨ key.length = 28 ∨
      key.length = 32 := hL
  show (encode_words tbl _ _ words).1.getD i none = _
  rw [(encode_words_spec tbl _ words _).2.2 i, if_pos ⟨hi, by omega⟩,
    group_value_reverse_bytes _ (isBytes_append hk hd) i (by rw [hlen]; omega), hlen]

theorem getD_map_range (f : Nat → CStr) (n i : Nat) (hi : i < n) :
    ((List.range n).map f).getD i [] = f i := by
  rw [List.getD_eq_getElem _ _ (by simpa using hi)]
  simp

/-- A word that is not in the table has the value 2047: the lookup returns -1. -/
theorem word_value_unknown (tbl : Nat → CStr) (hs : SortedTable tbl) (words : List CStr)
    (i : Nat) (hw : IsCStr (words.getD i []))
    (hnot : ∀ k, k < 2048 → tbl k ≠ words.getD i []) :
    word_value tbl words i = 2047 := by
  unfold word_value
  obtain ⟨r, hr⟩ := bip39_mnemonic_word_to_bits_isSome tbl (words.getD i [])
  rw [hr]
  rcases bip39_mnemonic_word_to_bits_sound tbl _ r hr with h | ⟨h1, h2, h3⟩
  · simp [h]
  · exact absurd (eq_of_strcmp_eq_zero _ _ hw (hs.1 _ (by omega)) h3).symm
      (hnot r.toNat (by omega))

/-! ## C9, C10: dictionary -/

/-- C9 (dictionary bijection): on a table of 2048 distinct strings sorted ascending under
`strcmp`, for every index `i` in `[0, 2047]` the word `bip39_mnemonic_word(i)` exists and
`bip39_mnemonic_word_to_bits` of it returns `i`. -/
theorem dictionary_bijection (tbl : Nat → CStr) (hs : SortedTable tbl) (i : Nat)
    (hi : i < 2048) :
    ∃ w, bip39_mnemonic_word tbl (i : Int) = some w ∧
      bip39_mnemonic_word_to_bits tbl w = some (i : Int) :=
  ⟨tbl i, bip39_mnemonic_word_of_lt tbl i hi, bip39_mnemonic_word_to_bits_entry tbl hs i hi⟩

theorem dictionary_bijection_witness :
    SortedTable demo_tbl ∧ 1019 < 2048 ∧
    ∃ w, bip39_mnemonic_word demo_tbl ((1019 : Nat) : Int) = some w ∧
      bip39_mnemonic_word_to_bits demo_tbl w = some ((1019 : Nat) : Int) :=
  ⟨demo_tbl_sorted, by decide, dictionary_bijection demo_tbl demo_tbl_sorted 1019 (by decide)⟩

/-- C10 (exact-match lookup): on a sorted table of 2048 distinct words, for every string
`s` the lookup `bip39_mnemonic_word_to_bits(s)` returns, it returns -1 if and only if `s`
is not an entry of the table, and otherwise it returns the index `i` with `table[i] = s`;
`bip39_word_is_valid(s)` returns `NULL` exactly for the strings not in the table and
otherwise the table entry equal to `s`. -/
theorem exact_match_lookup (tbl : Nat → CStr) (hs : SortedTable tbl) (s : CStr)
    (hc : IsCStr s) :
    ∃ r, bip39_mnemonic_word_to_bits tbl s = some r ∧
      (r = -1 ↔ ¬ ∃ i, i < 2048 ∧ tbl i = s) ∧
      (∀ i, i < 2048 → tbl i = s → r = (i : Int)) ∧
      (r ≠ -1 → 0 ≤ r ∧ r < 2048 ∧ tbl r.toNat = s) ∧
      ∃ v, bip39_word_is_valid tbl s = some v ∧
        (v = none ↔ ¬ ∃ i, i < 2048 ∧ tbl i = s) ∧
        (∀ w, v = some w → w = s ∧ ∃ i, i < 2048 ∧ w = tbl i) := by
  obtain ⟨r, hr⟩ := bip39_mnemonic_word_to_bits_isSome tbl s
  have hfound : ∀ i, i < 2048 → tbl i = s → r = (i : Int) := by
    intro i hi he
    have := bip39_mnemonic_word_to_bits_entry tbl hs i hi
    rw [he, hr] at this
    exact Option.some.inj this
  have hne : r ≠ -1 → 0 ≤ r ∧ r < 2048 ∧ tbl r.toNat = s := by
    intro h
    rcases bip39_mnemonic_word_to_bits_sound tbl s r hr with h1 | ⟨h1, h2, h3⟩
    · exact absurd h1 h
    · exact ⟨h1, h2, (eq_of_strcmp_eq_zero _ _ hc (hs.1 _ (by omega)) h3).symm⟩
  have hiff : r = -1 ↔ ¬ ∃ i, i < 2048 ∧ tbl i = s := by
    constructor
    · rintro h ⟨i, hi, he⟩
      have := hfound i hi he
      omega
    · intro h
      by_contra hr1
      obtain ⟨h1, h2, h3⟩ := hne hr1
      exact h ⟨r.toNat, by omega, h3⟩
  refine ⟨r, hr, hiff, hfound, hne, ?_⟩
  refine ⟨if r = -1 then none else some (tbl r.toNat), by simp [bip39_word_is_valid, hr], ?_, ?_⟩
  · by_cases h : r = -1
    · simp only [h, if_true, true_iff]
      exact hiff.mp h
    · rw [if_neg h]
      constructor
      · intro h0; cases h0
      · intro hn; exact absurd (hiff.mpr hn) h
  · intro w hw
    by_cases h : r = -1
    · simp [h] at hw
    · rw [if_neg h] at hw
      obtain ⟨h1, h2, h3⟩ := hne h
      have hw' : tbl r.toNat = w := Option.some.inj hw
      exact ⟨by rw [← hw', h3], r.toNat, by omega, hw'.symm⟩

theorem exact_match_lookup_witness :
    SortedTable demo_tbl ∧ IsCStr [1, 2, 3] ∧
    ∃ r, bip39_mnemonic_word_to_bits demo_tbl [1, 2, 3] = some r ∧
      (r = -1 ↔ ¬ ∃ i, i < 2048 ∧ demo_tbl i = [1, 2, 3]) ∧
      (∀ i, i < 2048 → demo_tbl i = [1, 2, 3] → r = (i : Int)) ∧
      (r ≠ -1 → 0 ≤ r ∧ r < 2048 ∧ demo_tbl r.toNat = [1, 2, 3]) ∧
      ∃ v, bip39_word_is_valid demo_tbl [1, 2, 3] = some v ∧
        (v = none ↔ ¬ ∃ i, i < 2048 ∧ demo_tbl i = [1, 2, 3]) ∧
        (∀ w, v = some w → w = [1, 2, 3] ∧ ∃ i, i < 2048 ∧ w = demo_tbl i) :=
  ⟨demo_tbl_sorted, by decide, exact_match_lookup demo_tbl demo_tbl_sorted [1, 2, 3] (by decide)⟩

/-! ## C6, C8, C2: encoder -/

/-- C6 (encode validates the key length): for every `int key_len`,
`bip39_key_to_mnemonic_words` returns -1 if and only if `key_len` is not one of 16, 20, 24,
28, 32 (15 and 33 are rejected), and when it returns -1 the `words` array and
`*p_nr_words` are left unchanged. -/
theorem encode_rejects_invalid_key_len (tbl : Nat → CStr) (sha : List Nat → List Nat)
    (key : List Nat) (key_len : Int) (words : List (Option CStr)) (nw0 : Int) :
    ((bip39_key_to_mnemonic_words tbl sha key key_len words nw0).rc = -1 ↔
      ¬ (key_len = 16 ∨ key_len = 20 ∨ key_len = 24 ∨ key_len = 28 ∨ key_len = 32)) ∧
    ((bip39_key_to_mnemonic_words tbl sha key key_len words nw0).rc = -1 →
      (bip39_key_to_mnemonic_words tbl sha key key_len words nw0).words = words ∧
      (bip39_key_to_mnemonic_words tbl sha key key_len words nw0).nr_words = nw0) ∧
    (bip39_key_to_mnemonic_words tbl sha key 15 words nw0).rc = -1 ∧
    (bip39_key_to_mnemonic_words tbl sha key 33 words nw0).rc = -1 := by
  have key : ∀ kl : Int,
      ((bip39_key_to_mnemonic_words tbl sha key kl words nw0).rc = -1 ↔
        ¬ (kl = 16 ∨ kl = 20 ∨ kl = 24 ∨ kl = 28 ∨ kl = 32)) ∧
      ((bip39_key_to_mnemonic_words tbl sha key kl words nw0).rc = -1 →
        (bip39_key_to_mnemonic_words tbl sha key kl words nw0).words = words ∧
        (bip39_key_to_mnemonic_words tbl sha key kl words nw0).nr_words = nw0) := by
    intro kl
    unfold bip39_key_to_mnemonic_words
    by_cases hc : kl < 16 ∨ kl > 32 ∨ Int.tmod (kl * 8) 32 ≠ 0
    · rw [if_pos hc]
      exact ⟨⟨fun _ => (key_len_check kl).mp hc, fun _ => rfl⟩, fun _ => ⟨rfl, rfl⟩⟩
    · rw [if_neg hc]
      dsimp only
      have hv := fun h => hc ((key_len_check kl).mpr h)
      split
      · exact ⟨⟨fun h => by simp at h, fun h => absurd h hv⟩, fun h => by simp at h⟩
      · exact ⟨⟨fun h => by simp at h, fun h => absurd h hv⟩, fun h => by simp at h⟩
  exact ⟨(key key_len).1, (key key_len).2, (key 15).1.mpr (by decide),
    (key 33).1.mpr (by decide)⟩

/-- C8 (word count): for every key of 16, 20, 24, 28 or 32 bytes
`bip39_key_to_mnemonic_words` returns 0 and reports `*p_nr_words` = 12, 15, 18, 21, 24
respectively, which is `(key_len * 8 + 10) / 11`, the ceiling of `key_len * 8 / 11`, and
`(key_bits + key_bits / 32) / 11`. -/
theorem encode_word_count (tbl : Nat → CStr) (sha : List Nat → List Nat) (key : List Nat)
    (words : List (Option CStr)) (nw0 : Int) (hL : ValidKeyLen key.length) :
    (bip39_key_to_mnemonic_words tbl sha key (key.length : Int) words nw0).rc = 0 ∧
    (bip39_key_to_mnemonic_words tbl sha key (key.length : Int) words nw0).nr_words =
      (((key.length * 8 + 10) / 11 : Nat) : Int) ∧
    (key.length * 8 + 10) / 11 = ⌈((key.length * 8 : Nat) : ℚ) / 11⌉₊ ∧
    (key.length * 8 + 10) / 11 = (key.length * 8 + key.length * 8 / 32) / 11 ∧
    (key.length = 16 →
      (bip39_key_to_mnemonic_words tbl sha key (key.length : Int) words nw0).nr_words = 12) ∧
    (key.length = 20 →
      (bip39_key_to_mnemonic_words tbl sha key (key.length : Int) words nw0).nr_words = 15) ∧
    (key.length = 24 →
      (bip39_key_to_mnemonic_words tbl sha key (key.length : Int) words nw0).nr_words = 18) ∧
    (key.length = 28 →
      (bip39_key_to_mnemonic_words tbl sha key (key.length : Int) words nw0).nr_words = 21) ∧
    (key.length = 32 →
      (bip39_key_to_mnemonic_words tbl sha key (key.length : Int) words nw0).nr_words = 24) := by
  rw [encode_of_valid tbl sha key words nw0 hL]
  have e : 8 * key.length = key.length * 8 := Nat.mul_comm _ _
  rw [e]
  refine ⟨rfl, rfl, ?_, ?_, ?_, ?_, ?_, ?_, ?_⟩
  · unfold ValidKeyLen at hL
    rcases hL with h | h | h | h | h <;> rw [h] <;> symm <;>
      rw [Nat.ceil_eq_iff (by norm_num)] <;> norm_num
  · unfold ValidKeyLen at hL
    omega
  all_goals
    intro h
    rw [h]
    rfl

theorem encode_word_count_witness :
    ValidKeyLen (List.replicate 16 0x7f).length ∧
    (bip39_key_to_mnemonic_words demo_tbl demo_sha (List.replicate 16 0x7f)
      ((List.replicate 16 0x7f).length : Int) (List.replicate 24 none) 0).nr_words = 12 :=
  ⟨by decide,
   (encode_word_count demo_tbl demo_sha (List.replicate 16 0x7f) (List.replicate 24 none) 0
      (by decide)).2.2.2.2.1 (by decide)⟩

/-- C2 (encode equals the BIP-39 reference definition): for every key of valid length `L`
and every `i` below the reported word count, `words[i]` is the table entry with index
`(N >> (8 * (L + 1) - 11 * (i + 1))) mod 2048`, `N` being the big-endian value of the
`L + 1` bytes `key ‖ sha256(key)[0]`; word 0 carries the highest-order 11 bits. -/
theorem encode_reference (tbl : Nat → CStr) (sha : List Nat → List Nat) (key : List Nat)
    (words : List (Option CStr)) (nw0 : Int) (hL : ValidKeyLen key.length)
    (hk : IsBytes key) (hd : IsDigest (sha key)) (hw : words.length = 24) :
    (bip39_key_to_mnemonic_words tbl sha key (key.length : Int) words nw0).rc = 0 ∧
    ∀ i : Nat,
      (i : Int) < (bip39_key_to_mnemonic_words tbl sha key (key.length : Int) words nw0).nr_words →
      (bip39_key_to_mnemonic_words tbl sha key (key.length : Int) words nw0).words.getD i none =
        some (tbl ((be_value (key ++ [(sha key).getD 0 0]) >>>
          (8 * (key.length + 1) - 11 * (i + 1))) % 2048)) := by
  rw [encode_of_valid tbl sha key words nw0 hL]
  refine ⟨rfl, ?_⟩
  intro i hi
  have hi' : i < (8 * key.length + 10) / 11 := by
    have hi2 : (i : Int) < (((8 * key.length + 10) / 11 : Nat) : Int) := hi
    exact_mod_cast hi2
  have hlen : (key ++ [(sha key).getD 0 0]).length = key.length + 1 := by simp
  have hi24 : i < 24 := by unfold ValidKeyLen at hL; omega
  show (encode_words tbl _ _ words).1.getD i none = _
  rw [(encode_words_spec tbl _ words _).2.2 i, if_pos ⟨hi', by omega⟩,
    group_value_reverse_bytes _ (isBytes_append hk (digest_head_lt hd)) i
      (by rw [hlen]; unfold ValidKeyLen at hL; omega), hlen]

theorem encode_reference_witness :
    ValidKeyLen (List.replicate 16 0x7f).length ∧ IsBytes (List.replicate 16 0x7f) ∧
    IsDigest (demo_sha (List.replicate 16 0x7f)) ∧
    (List.replicate 24 (none : Option CStr)).length = 24 ∧
    (bip39_key_to_mnemonic_words demo_tbl demo_sha (List.replicate 16 0x7f)
      ((List.replicate 16 0x7f).length : Int) (List.replicate 24 none) 0).words.getD 0 none =
        some (demo_tbl 1019) :=
  ⟨by decide, by decide, by decide, by decide,
   (encode_reference demo_tbl demo_sha (List.replicate 16 0x7f) (List.replicate 24 none) 0
      (by decide) (by decide) (by decide) (by decide)).2 0
      (by rw [encode_of_valid _ _ _ _ _ (by decide)]; decide)⟩

/-! ## C7, C4, C5: decoder -/

/-- C7 (decode validates the word count): for every `int nr_words`,
`bip39_key_from_mnemonic_words` returns, and it returns -1 if and only if `nr_words` is
not one of 12, 15, 18, 21, 24 (13 is rejected); when it returns -1 the caller's key buffer
and `*p_key_len` are unchanged and no word has been looked up. -/
theorem decode_rejects_invalid_word_count (tbl : Nat → CStr) (sha : List Nat → List Nat)
    (words : List CStr) (nr_words : Int) (key_in : List Nat) (kl0 : Int) :
    (∃ r, bip39_key_from_mnemonic_words tbl sha words nr_words key_in kl0 = some r ∧
      (r.rc = -1 ↔ ¬ (nr_words = 12 ∨ nr_words = 15 ∨ nr_words = 18 ∨ nr_words = 21 ∨
        nr_words = 24)) ∧
      (r.rc = -1 → r.key = key_in ∧ r.key_len = kl0 ∧ r.lookups = 0)) ∧
    bip39_key_from_mnemonic_words tbl sha words 13 key_in kl0 =
      some ⟨-1, key_in, kl0, 0⟩ := by
  constructor
  · by_cases hv : nr_words = 12 ∨ nr_words = 15 ∨ nr_words = 18 ∨ nr_words = 21 ∨
        nr_words = 24
    · obtain ⟨n, hn⟩ : ∃ n : Nat, nr_words = (n : Int) := ⟨nr_words.toNat, by omega⟩
      have hvn : ValidWordCount n := by unfold ValidWordCount; omega
      obtain ⟨r, hr, _, _, hrc, _⟩ :=
        decode_spec tbl sha words n key_in kl0 hvn _ _ rfl rfl
      rw [hn, hr]
      refine ⟨r, rfl, ⟨fun h => ?_, fun h => ?_⟩, fun h => ?_⟩
      · omega
      · exact absurd (hn ▸ hv) h
      · omega
    · have hc : nr_words ≠ 12 ∧ nr_words ≠ 15 ∧ nr_words ≠ 18 ∧ nr_words ≠ 21 ∧
          nr_words ≠ 24 := by omega
      unfold bip39_key_from_mnemonic_words
      simp only [if_pos hc]
      exact ⟨_, rfl, ⟨fun _ => hv, fun _ => rfl⟩, fun _ => ⟨rfl, rfl, rfl⟩⟩
  · unfold bip39_key_from_mnemonic_words
    simp only [if_pos (show (13 : Int) ≠ 12 ∧ (13 : Int) ≠ 15 ∧ (13 : Int) ≠ 18 ∧
      (13 : Int) ≠ 21 ∧ (13 : Int) ≠ 24 by decide)]

/-- C4 (decode equals the reference reconstruction): for `n` in {12, 15, 18, 21, 24} and a
sentence of `n` words that are the table entries of indices `x_0 .. x_{n-1}`,
`bip39_key_from_mnemonic_words` returns and writes `key_len = (11 n - 1) / 8`, which is
16/20/24/28/32 respectively, the checksum length `11 n - 8 key_len` being `key_bits / 32`;
key byte `j < key_len` is `(X >> (11 n - 8 (j + 1))) mod 256`, with
`X = Σ x_i 2^(11 (n - 1 - i))`. -/
theorem decode_reference (tbl : Nat → CStr) (sha : List Nat → List Nat) (words : List CStr)
    (n : Nat) (x : Nat → Nat) (key_in : List Nat) (kl0 : Int) (hs : SortedTable tbl)
    (hn : ValidWordCount n)
    (hx : ∀ i, i < n → x i < 2048 ∧ words.getD i [] = tbl (x i)) :
    ∃ r, bip39_key_from_mnemonic_words tbl sha words (n : Int) key_in kl0 = some r ∧
      r.key_len = (((11 * n - 1) / 8 : Nat) : Int) ∧
      ((n = 12 ∧ r.key_len = 16) ∨ (n = 15 ∧ r.key_len = 20) ∨ (n = 18 ∧ r.key_len = 24) ∨
        (n = 21 ∧ r.key_len = 28) ∨ (n = 24 ∧ r.key_len = 32)) ∧
      11 * (n : Int) - 8 * r.key_len = r.key_len * 8 / 32 ∧
      ∀ j, j < (11 * n - 1) / 8 → r.key.getD j 0 =
        (index_concat x n >>> (11 * n - 8 * (j + 1))) % 256 := by
  obtain ⟨r, hr, hkl, _, _, _, _, hkey, _⟩ :=
    decode_spec tbl sha words n key_in kl0 hn _ _ rfl rfl
  have hX : index_concat (word_value tbl words) n = index_concat x n :=
    index_concat_congr _ _ n
      (fun i hi => word_value_entry tbl hs words i (x i) (hx i hi).1 (hx i hi).2)
  rw [hX] at hkey
  have hn' : n = 12 ∨ n = 15 ∨ n = 18 ∨ n = 21 ∨ n = 24 := hn
  refine ⟨r, hr, hkl, ?_, ?_, hkey⟩
  · rw [hkl]
    rcases hn' with h | h | h | h | h <;> subst h <;> decide
  · rw [hkl]
    rcases hn' with h | h | h | h | h <;> subst h <;> decide

theorem decode_reference_witness :
    SortedTable demo_tbl ∧ ValidWordCount 12 ∧
    (∀ i, i < 12 → (fun _ => 2047) i < 2048 ∧
      (List.replicate 12 (demo_tbl 2047)).getD i [] = demo_tbl ((fun _ => 2047) i)) ∧
    ∃ r, bip39_key_from_mnemonic_words demo_tbl demo_sha (List.replicate 12 (demo_tbl 2047))
        ((12 : Nat) : Int) (List.replicate 32 0) 0 = some r ∧ r.key_len = 16 ∧
      ∀ j, j < 16 → r.key.getD j 0 = 255 :=
  ⟨demo_tbl_sorted, by decide, by decide,
   (decode_reference demo_tbl demo_sha (List.replicate 12 (demo_tbl 2047)) 12 (fun _ => 2047)
      (List.replicate 32 0) 0 demo_tbl_sorted (by decide) (by decide)).imp
     (fun r h => ⟨h.1, h.2.1, fun j hj => by
        have := h.2.2.2.2 j (by omega)
        rw [this]
        interval_cases j <;> decide⟩)⟩

/-- C5 (checksum verdict of decode): for a sentence of valid word count `n` whose words are
all in the table, `bip39_key_from_mnemonic_words` returns 0 exactly when the last
`checksum_len = 11 n - 8 key_len` bits of the concatenated indices equal the top
`checksum_len` bits of `sha256(decoded key)[0]`, and returns -2 otherwise; whichever it
returns, `key_len` and the key bytes have been written to the caller's outputs. -/
theorem decode_checksum_verdict (tbl : Nat → CStr) (sha : List Nat → List Nat)
    (words : List CStr) (n : Nat) (x : Nat → Nat) (key_in : List Nat) (kl0 : Int)
    (hs : SortedTable tbl) (hsha : ∀ m, IsDigest (sha m)) (hn : ValidWordCount n)
    (hx : ∀ i, i < n → x i < 2048 ∧ words.getD i [] = tbl (x i)) :
    ∃ r, bip39_key_from_mnemonic_words tbl sha words (n : Int) key_in kl0 = some r ∧
      (r.rc = 0 ↔
        index_concat x n % 2 ^ (11 * n - 8 * ((11 * n - 1) / 8)) =
          (sha (r.key.take ((11 * n - 1) / 8))).getD 0 0 >>>
            (8 - (11 * n - 8 * ((11 * n - 1) / 8)))) ∧
      (r.rc = -2 ↔
        index_concat x n % 2 ^ (11 * n - 8 * ((11 * n - 1) / 8)) ≠
          (sha (r.key.take ((11 * n - 1) / 8))).getD 0 0 >>>
            (8 - (11 * n - 8 * ((11 * n - 1) / 8)))) ∧
      r.key_len = (((11 * n - 1) / 8 : Nat) : Int) ∧
      ∀ j, j < (11 * n - 1) / 8 → r.key.getD j 0 =
        (index_concat x n >>> (11 * n - 8 * (j + 1))) % 256 := by
  obtain ⟨r, hr, hkl, _, hrc, _, _, hkey, hiff⟩ :=
    decode_spec tbl sha words n key_in kl0 hn _ _ rfl rfl
  have hX : index_concat (word_value tbl words) n = index_concat x n :=
    index_concat_congr _ _ n
      (fun i hi => word_value_entry tbl hs words i (x i) (hx i hi).1 (hx i hi).2)
  rw [hX] at hkey hiff
  have hiff := hiff (digest_head_lt (hsha _))
  refine ⟨r, hr, hiff, ?_, hkl, hkey⟩
  rw [Ne, ← hiff]
  rcases hrc with h | h
  · rw [h]; simp
  · rw [h]; simp

theorem decode_checksum_verdict_witness :
    SortedTable demo_tbl ∧ (∀ m, IsDigest (demo_sha m)) ∧ ValidWordCount 12 ∧
    (∀ i, i < 12 → (fun _ => 2047) i < 2048 ∧
      (List.replicate 12 (demo_tbl 2047)).getD i [] = demo_tbl ((fun _ => 2047) i)) ∧
    ∃ r, bip39_key_from_mnemonic_words demo_tbl demo_sha (List.replicate 12 (demo_tbl 2047))
        ((12 : Nat) : Int) (List.replicate 32 0) 0 = some r ∧ r.key_len = 16 :=
  ⟨demo_tbl_sorted, demo_sha_digest, by decide, by decide,
   (decode_checksum_verdict demo_tbl demo_sha (List.replicate 12 (demo_tbl 2047)) 12
      (fun _ => 2047) (List.replicate 32 0) 0 demo_tbl_sorted demo_sha_digest (by decide)
      (by decide)).imp (fun r h => ⟨h.1, h.2.2.2.1⟩)⟩

/-! ## C1: round trip -/

/-- C1 (round trip): for every key of 16, 20, 24, 28 or 32 arbitrary bytes, any hash
returning 32-byte digests and any sorted table of 2048 distinct strings,
`bip39_key_to_mnemonic_words` returns 0 with `n` words `w`, and
`bip39_key_from_mnemonic_words(w, n)` then returns 0 (no checksum mismatch), writes
`key_len` = the length of the key and key bytes equal to the original key. -/
theorem round_trip (tbl : Nat → CStr) (sha : List Nat → List Nat) (key : List Nat)
    (words : List (Option CStr)) (nw0 : Int) (key_in : List Nat) (kl0 : Int)
    (hs : SortedTable tbl) (hsha : ∀ m, IsDigest (sha m)) (hL : ValidKeyLen key.length)
    (hk : IsBytes key) (hw : words.length = 24) :
    (bip39_key_to_mnemonic_words tbl sha key (key.length : Int) words nw0).rc = 0 ∧
    ∃ ws : List CStr,
      (ws.length : Int) =
        (bip39_key_to_mnemonic_words tbl sha key (key.length : Int) words nw0).nr_words ∧
      (∀ i, i < ws.length →
        (bip39_key_to_mnemonic_words tbl sha key (key.length : Int) words nw0).words.getD i none
          = some (ws.getD i [])) ∧
      ∃ r, bip39_key_from_mnemonic_words tbl sha ws
          (bip39_key_to_mnemonic_words tbl sha key (key.length : Int) words nw0).nr_words
          key_in kl0 = some r ∧
        r.rc = 0 ∧ r.key_len = (key.length : Int) ∧ r.key.take key.length = key := by
  have hd := digest_head_lt (hsha key)
  have hent := encode_word_entry tbl sha key words nw0 hL hk hd hw
  rw [encode_of_valid tbl sha key words nw0 hL] at hent ⊢
  refine ⟨rfl, (List.range ((8 * key.length + 10) / 11)).map (fun i =>
    tbl ((be_value (key ++ [(sha key).getD 0 0]) >>>
      (8 * (key.length + 1) - 11 * (i + 1))) % 2048)), ?_, ?_, ?_⟩
  · simp
  · intro i hi
    have hi' : i < (8 * key.length + 10) / 11 := by simpa using hi
    rw [getD_map_range _ _ _ hi']
    exact hent i hi'
  · obtain ⟨r, hr, hrc, hkl, htake, _⟩ :=
      decode_of_encoded tbl sha key _ key_in kl0 hs hL hk hd
        (fun i hi => getD_map_range _ _ i hi)
    exact ⟨r, hr, hrc, hkl, htake⟩

theorem round_trip_witness :
    SortedTable demo_tbl ∧ (∀ m, IsDigest (demo_sha m)) ∧
    ValidKeyLen (List.replicate 16 0x7f).length ∧ IsBytes (List.replicate 16 0x7f) ∧
    (List.replicate 24 (none : Option CStr)).length = 24 ∧
    ∃ ws : List CStr,
      (ws.length : Int) =
        (bip39_key_to_mnemonic_words demo_tbl demo_sha (List.replicate 16 0x7f)
          ((List.replicate 16 0x7f).length : Int) (List.replicate 24 none) 0).nr_words ∧
      ∃ r, bip39_key_from_mnemonic_words demo_tbl demo_sha ws
          (bip39_key_to_mnemonic_words demo_tbl demo_sha (List.replicate 16 0x7f)
            ((List.replicate 16 0x7f).length : Int) (List.replicate 24 none) 0).nr_words
          (List.replicate 32 0) 0 = some r ∧
        r.rc = 0 ∧ r.key.take (List.replicate 16 0x7f).length = List.replicate 16 0x7f :=
  ⟨demo_tbl_sorted, demo_sha_digest, by decide, by decide, by decide,
   (round_trip demo_tbl demo_sha (List.replicate 16 0x7f) (List.replicate 24 none) 0
      (List.replicate 32 0) 0 demo_tbl_sorted demo_sha_digest (by decide) (by decide)
      (by decide)).2.imp
     (fun _ h => ⟨h.1, h.2.2.imp (fun _ g => ⟨g.1, g.2.1, g.2.2.2⟩)⟩)⟩

/-! ## C3: a word that is not in the dictionary -/

/-- C3 (the code against the claim): the return value -1 of the lookup is not checked. On
any sorted table and with any hash whose digest of 16 bytes `0xff` starts with the nibble
5 (as SHA-256 does), the 12-word sentence made of a string `w` that is not in the table,
ten times table entry 2047 and table entry 2037 is accepted: the decoder returns 0 with
`key_len = 16` and the key of 16 bytes `0xff`. -/
theorem decode_accepts_unknown_word (tbl : Nat → CStr) (sha : List Nat → List Nat)
    (w : CStr) (key_in : List Nat) (kl0 : Int) (hs : SortedTable tbl) (hw : IsCStr w)
    (hnot : ∀ k, k < 2048 → tbl k ≠ w) (hsha : IsDigest (sha (List.replicate 16 255)))
    (h5 : (sha (List.replicate 16 255)).getD 0 0 >>> 4 = 5) :
    ∃ r, bip39_key_from_mnemonic_words tbl sha
        (w :: List.replicate 10 (tbl 2047) ++ [tbl 2037]) 12 key_in kl0 = some r ∧
      r.rc = 0 ∧ r.key_len = 16 ∧ r.key.take 16 = List.replicate 16 255 := by
  obtain ⟨r, hr, hkl, _, _, htl, _, hkey, hiff⟩ :=
    decode_spec tbl sha (w :: List.replicate 10 (tbl 2047) ++ [tbl 2037]) 12 key_in kl0
      (by decide) 16 4 (by decide) (by decide)
  have hX : index_concat (word_value tbl (w :: List.replicate 10 (tbl 2047) ++ [tbl 2037])) 12
      = index_concat (fun i => if i < 11 then 2047 else 2037) 12 := by
    apply index_concat_congr
    intro i hi
    rcases Nat.eq_zero_or_pos i with h0 | h0
    · subst h0
      exact word_value_unknown tbl hs _ 0 hw hnot
    · rcases Nat.lt_or_ge i 11 with h11 | h11
      · rw [if_pos h11]
        apply word_value_entry tbl hs _ i 2047 (by norm_num)
        interval_cases i <;> rfl
      · rw [if_neg (by omega)]
        apply word_value_entry tbl hs _ i 2037 (by norm_num)
        have : i = 11 := by omega
        subst this
        rfl
  have hXv : index_concat (fun i => if i < 11 then 2047 else 2037) 12 = 2 ^ 132 - 11 := by
    simp [index_concat, Finset.sum_range_succ]
  rw [hX, hXv] at hkey hiff
  have htake : r.key.take 16 = List.replicate 16 255 := by
    apply list_eq_of_getD _ _ (by rw [htl]; simp)
    intro j hj
    rw [htl] at hj
    rw [getD_take _ _ _ hj, hkey j hj]
    interval_cases j <;> rfl
  refine ⟨r, hr, ?_, hkl, htake⟩
  rw [htake, h5] at hiff
  exact (hiff (digest_head_lt hsha)).mpr (by decide)

theorem decode_accepts_unknown_word_witness :
    SortedTable demo_tbl ∧ IsCStr [255, 255, 255] ∧
    (∀ k, k < 2048 → demo_tbl k ≠ [255, 255, 255]) ∧
    IsDigest (demo_sha (List.replicate 16 255)) ∧
    (demo_sha (List.replicate 16 255)).getD 0 0 >>> 4 = 5 ∧
    ∃ r, bip39_key_from_mnemonic_words demo_tbl demo_sha
        ([255, 255, 255] :: List.replicate 10 (demo_tbl 2047) ++ [demo_tbl 2037]) 12
        (List.replicate 32 0) 0 = some r ∧
      r.rc = 0 ∧ r.key_len = 16 ∧ r.key.take 16 = List.replicate 16 255 :=
  ⟨demo_tbl_sorted, by decide, fun k _ h => by simp [demo_tbl] at h, by decide, by decide,
   decode_accepts_unknown_word demo_tbl demo_sha [255, 255, 255] (List.replicate 32 0) 0
     demo_tbl_sorted (by decide) (fun k _ h => by simp [demo_tbl] at h) (by decide)
     (by decide)⟩

/-! ## C15, C16: bit reversal and checksum mask -/

/-- C15 (the per-byte transform is an involution and a true bit reversal): for every byte
`b`, `u8_reverse_bits(u8_reverse_bits(b)) = b`, the result is a byte, and bit `k` of
`u8_reverse_bits(b)` is bit `7 - k` of `b` for `k` in `0..7`. -/
theorem u8_reverse_bits_involution (b : Nat) (hb : b < 256) :
    u8_reverse_bits (u8_reverse_bits b) = b ∧ u8_reverse_bits b < 256 ∧
    ∀ k, k < 8 → (u8_reverse_bits b).testBit k = b.testBit (7 - k) := by
  refine ⟨?_, u8_reverse_bits_lt b, fun k hk => u8_reverse_bits_testBit_lt b k hk⟩
  apply Nat.eq_of_testBit_eq
  intro k
  rw [u8_reverse_bits_testBit, u8_reverse_bits_testBit]
  by_cases hk : k < 8
  · have e1 : 7 - k < 8 := by omega
    have e2 : 7 - (7 - k) = k := by omega
    simp [hk, e1, e2]
  · have := testBit_of_lt_256 hb (show 8 ≤ k by omega)
    simp [hk, this]

theorem u8_reverse_bits_involution_witness :
    0x69 < 256 ∧ u8_reverse_bits (u8_reverse_bits 0x69) = 0x69 ∧ u8_reverse_bits 0x69 < 256 ∧
    ∀ k, k < 8 → (u8_reverse_bits 0x69).testBit k = Nat.testBit 0x69 (7 - k) :=
  ⟨by decide, u8_reverse_bits_involution 0x69 (by decide)⟩

/-- C16 (checksum mask): for `checksum_len` in {4, 5, 6, 7, 8} and every digest byte `d`,
`digest[0] &= bit_mask(checksum_len) << (8 - checksum_len)` leaves `d & (0xFF << (8 -
checksum_len)) & 0xFF`: the top `checksum_len` bits of `d` are kept and the low
`8 - checksum_len` bits are zero, `bit_mask(n)` being `(1 << (n + 1)) - 1`. -/
theorem checksum_mask (cs d : Nat) (hcs : cs = 4 ∨ cs = 5 ∨ cs = 6 ∨ cs = 7 ∨ cs = 8)
    (hd : d < 256) :
    bit_mask cs = 2 ^ (cs + 1) - 1 ∧
    (d &&& (bit_mask cs <<< (8 - cs))) % 256 = (d &&& (0xFF <<< (8 - cs))) &&& 0xFF ∧
    (∀ k, k < 8 - cs → ((d &&& (bit_mask cs <<< (8 - cs))) % 256).testBit k = false) ∧
    (∀ k, 8 - cs ≤ k → k < 8 →
      ((d &&& (bit_mask cs <<< (8 - cs))) % 256).testBit k = d.testBit k) ∧
    (∀ k, 8 ≤ k → ((d &&& (bit_mask cs <<< (8 - cs))) % 256).testBit k = false) := by
  have hcs8 : cs ≤ 8 := by omega
  have hbit : ∀ k, ((d &&& (bit_mask cs <<< (8 - cs))) % 256).testBit k =
      (decide (8 - cs ≤ k) && d.testBit k) := by
    intro k
    rw [masked_digest d cs hd hcs8, Nat.testBit_shiftLeft, Nat.testBit_shiftRight]
    by_cases hk : 8 - cs ≤ k
    · simp [hk, show 8 - cs + (k - (8 - cs)) = k by omega]
    · simp [hk]
  refine ⟨by unfold bit_mask; rw [Nat.one_shiftLeft], ?_, ?_, ?_, ?_⟩
  · apply Nat.eq_of_testBit_eq
    intro k
    have h255 : ∀ j, Nat.testBit 255 j = decide (j < 8) := Nat.testBit_two_pow_sub_one 8
    rw [hbit, Nat.testBit_land, Nat.testBit_land, Nat.testBit_shiftLeft, h255, h255]
    by_cases hk : 8 - cs ≤ k
    · by_cases hk8 : k < 8
      · have : k - (8 - cs) < 8 := by omega
        simp [hk, hk8, this]
      · have := testBit_of_lt_256 hd (show 8 ≤ k by omega)
        simp [this]
    · simp [hk]
  · intro k hk
    rw [hbit]
    have : ¬ 8 - cs ≤ k := by omega
    simp [this]
  · intro k hk _
    rw [hbit]
    simp [hk]
  · intro k hk
    rw [hbit, testBit_of_lt_256 hd hk]
    simp

theorem checksum_mask_witness :
    (4 = 4 ∨ 4 = 5 ∨ 4 = 6 ∨ 4 = 7 ∨ 4 = 8) ∧ 0x5a < 256 ∧
    (0x5a &&& (bit_mask 4 <<< (8 - 4))) % 256 = (0x5a &&& (0xFF <<< (8 - 4))) &&& 0xFF :=
  ⟨by decide, by decide, (checksum_mask 4 0x5a (by decide) (by decide)).2.1⟩

/-! ## C12, C11: encoder, groups and all-zero keys -/

/-- C12 (InvalidWordIndex is unreachable): whatever the buffer, each 11-bit group value
computed in `bip39_key_to_mnemonic_words` is at most 2047, so `bip39_mnemonic_word` does
not return `NULL` on it and the word loop never leaves through `return -2`; the function
never returns -2, and for a key of valid length it returns 0. -/
theorem invalid_word_index_unreachable (tbl : Nat → CStr) (sha : List Nat → List Nat)
    (key : List Nat) (key_len : Int) (words : List (Option CStr)) (nw0 : Int) :
    (∀ kwc i, group_value kwc i < 2048 ∧
      bip39_mnemonic_word tbl (group_value kwc i : Nat) = some (tbl (group_value kwc i))) ∧
    (∀ kwc n ws, (encode_words tbl kwc n ws).2 = false) ∧
    (∀ kwc i ws, encode_words tbl kwc (i + 1) ws =
      ((encode_words tbl kwc i ws).1.set i (some (tbl (group_value kwc i))), false)) ∧
    (bip39_key_to_mnemonic_words tbl sha key key_len words nw0).rc ≠ -2 ∧
    (ValidKeyLen key.length →
      (bip39_key_to_mnemonic_words tbl sha key (key.length : Int) words nw0).rc = 0) := by
  refine ⟨fun kwc i => ⟨group_value_lt kwc i,
      bip39_mnemonic_word_of_lt tbl _ (group_value_lt kwc i)⟩,
    fun kwc n ws => (encode_words_spec tbl kwc ws n).1, ?_, ?_, ?_⟩
  · intro kwc i ws
    rw [encode_words_succ, (encode_words_spec tbl kwc ws i).1,
      bip39_mnemonic_word_of_lt tbl _ (group_value_lt kwc i)]
    rfl
  · unfold bip39_key_to_mnemonic_words
    split
    · simp
    · simp only [(encode_words_spec tbl _ words _).1]
      simp
  · intro hL
    rw [encode_of_valid tbl sha key words nw0 hL]

theorem be_value_replicate_zero (n : Nat) : be_value (List.replicate n 0) = 0 := by
  induction n with
  | zero => rfl
  | succ n ih =>
    rw [List.replicate_succ', be_value_append, ih]
    norm_num

/-- C11 (all-zero vectors): for every valid key length `L`, encoding the key of `L` zero
bytes yields `nr_words` words of which the first `nr_words - 1` are table entry 0 and the
last is the table entry of index `sha256(key)[0] >> (8 - L / 4)`; when the digest of 16
zero bytes starts `0x37` the last word for `L = 16` is entry 3, and when the digest of 32
zero bytes starts `0x66` the last word for `L = 32` is entry 102. -/
theorem encode_all_zero (tbl : Nat → CStr) (sha : List Nat → List Nat) (L : Nat)
    (words : List (Option CStr)) (nw0 : Int) (hL : ValidKeyLen L)
    (hd : IsDigest (sha (List.replicate L 0))) (hw : words.length = 24) :
    (bip39_key_to_mnemonic_words tbl sha (List.replicate L 0) (L : Int) words nw0).rc = 0 ∧
    (bip39_key_to_mnemonic_words tbl sha (List.replicate L 0) (L : Int) words nw0).nr_words =
      (((8 * L + 10) / 11 : Nat) : Int) ∧
    (∀ i, i + 1 < (8 * L + 10) / 11 →
      (bip39_key_to_mnemonic_words tbl sha (List.replicate L 0) (L : Int) words
        nw0).words.getD i none = some (tbl 0)) ∧
    (bip39_key_to_mnemonic_words tbl sha (List.replicate L 0) (L : Int) words
        nw0).words.getD ((8 * L + 10) / 11 - 1) none =
      some (tbl ((sha (List.replicate L 0)).getD 0 0 >>> (8 - L / 4))) ∧
    (L = 16 → (sha (List.replicate L 0)).getD 0 0 = 0x37 →
      (bip39_key_to_mnemonic_words tbl sha (List.replicate L 0) (L : Int) words
        nw0).words.getD 11 none = some (tbl 3)) ∧
    (L = 32 → (sha (List.replicate L 0)).getD 0 0 = 0x66 →
      (bip39_key_to_mnemonic_words tbl sha (List.replicate L 0) (L : Int) words
        nw0).words.getD 23 none = some (tbl 102)) := by
  have hlen : (List.replicate L 0).length = L := List.length_replicate _ _
  have hL' : L = 16 ∨ L = 20 ∨ L = 24 ∨ L = 28 ∨ L = 32 := hL
  have hLr : ValidKeyLen (List.replicate L 0).length := by rw [hlen]; exact hL
  have hk : IsBytes (List.replicate L 0) := by
    intro b hb
    rw [(List.mem_replicate.mp hb).2]
    norm_num
  have hd0 := digest_head_lt hd
  have hN : be_value (List.replicate L 0 ++ [(sha (List.replicate L 0)).getD 0 0]) =
      (sha (List.replicate L 0)).getD 0 0 := by
    rw [be_value_append, be_value_replicate_zero]
    simp
  have hv := encode_of_valid tbl sha (List.replicate L 0) words nw0 hLr
  have hent := encode_word_entry tbl sha (List.replicate L 0) words nw0 hLr hk hd0 hw
  rw [hlen, hN] at hent
  rw [hlen] at hv
  have hlast : (bip39_key_to_mnemonic_words tbl sha (List.replicate L 0) (L : Int) words
        nw0).words.getD ((8 * L + 10) / 11 - 1) none =
      some (tbl ((sha (List.replicate L 0)).getD 0 0 >>> (8 - L / 4))) := by
    rw [hent _ (by omega)]
    have e : 8 * (L + 1) - 11 * ((8 * L + 10) / 11 - 1 + 1) = 8 - L / 4 := by omega
    rw [e, Nat.mod_eq_of_lt]
    rw [Nat.shiftRight_eq_div_pow]
    exact lt_of_le_of_lt (Nat.div_le_self _ _) (by omega)
  refine ⟨by rw [hv], by rw [hv], ?_, hlast, ?_, ?_⟩
  · intro i hi
    rw [hent i (by omega)]
    have e : (sha (List.replicate L 0)).getD 0 0 >>> (8 * (L + 1) - 11 * (i + 1)) = 0 := by
      rw [Nat.shiftRight_eq_div_pow]
      apply Nat.div_eq_of_lt
      exact lt_of_lt_of_le hd0 (Nat.pow_le_pow_right (show 0 < 2 by norm_num)
        (show 8 ≤ 8 * (L + 1) - 11 * (i + 1) by omega))
    rw [e]
  · intro h16 h37
    rw [h16] at hlast h37
    rw [h37] at hlast
    rw [h16]
    exact hlast
  · intro h32 h66
    rw [h32] at hlast h66
    rw [h66] at hlast
    rw [h32]
    exact hlast

theorem encode_all_zero_witness :
    ValidKeyLen 16 ∧ IsDigest (demo_sha (List.replicate 16 0)) ∧
    (List.replicate 24 (none : Option CStr)).length = 24 ∧
    (bip39_key_to_mnemonic_words demo_tbl demo_sha (List.replicate 16 0) ((16 : Nat) : Int)
        (List.replicate 24 none) 0).words.getD ((8 * 16 + 10) / 11 - 1) none =
      some (demo_tbl ((demo_sha (List.replicate 16 0)).getD 0 0 >>> (8 - 16 / 4))) :=
  ⟨by decide, by decide, by decide,
   (encode_all_zero demo_tbl demo_sha 16 (List.replicate 24 none) 0 (by decide) (by decide)
      (by decide)).2.2.2.1⟩

/-! ## C13, C14: bit packer -/

theorem isBytes_set {m : List Nat} (hm : IsBytes m) (i v : Nat) (hv : v < 256) :
    IsBytes (m.set i v) := by
  intro b hb
  rcases List.mem_or_eq_of_mem_set hb with h | h
  · exact hm b h
  · rw [h]; exact hv

theorem isBytes_bit_range_copy (src : List Nat) (f w n : Nat) (dst : List Nat)
    (hd : IsBytes dst) : IsBytes (bit_range_copy src f w n dst) := by
  induction n with
  | zero => exact hd
  | succ n ih =>
    simp only [bit_range_copy]
    split
    · exact isBytes_set ih _ _ (Nat.mod_lt _ (by norm_num))
    · exact ih

theorem bit_range_copy_congr (src src' : List Nat) (f w n : Nat) (dst : List Nat)
    (h : ∀ k, k < n → buf_bit src' (f + k) = buf_bit src (f + k)) :
    bit_range_copy src' f w n dst = bit_range_copy src f w n dst := by
  induction n with
  | zero => rfl
  | succ n ih =>
    simp only [bit_range_copy, is_bit_set_u8_eq]
    rw [ih (fun k hk => h k (by omega)), h n (Nat.lt_succ_self n)]

/-- C13 (contract of `bit_range_extract`): for `from < to`, with `n = to - from` and
`off = base + (8 * ceil(n / 8) - n if right_justified else 0)`, and a destination that holds
bits `off .. off + n - 1`: after the call bit `off + k` of `dst` is the old bit OR bit
`from + k` of `src` for every `k < n`, every other bit of `dst` is unchanged (the length
too, and bytes stay bytes), only bits `[from, to)` of `src` influence the result, and on
an all-zero destination the result is an exact copy of the `n` bits. -/
theorem bit_range_extract_contract (src dst : List Nat) (base from_ to_ : Nat)
    (right_justified : Bool) (_hft : from_ < to_)
    (hcap : base + (if right_justified then 8 * ((to_ - from_ + 7) / 8) - (to_ - from_) else 0)
      + (to_ - from_) ≤ 8 * dst.length) :
    (bit_range_extract dst base src from_ to_ right_justified).length = dst.length ∧
    (IsBytes dst → IsBytes (bit_range_extract dst base src from_ to_ right_justified)) ∧
    (∀ k, k < to_ - from_ →
      buf_bit (bit_range_extract dst base src from_ to_ right_justified)
        (base + (if right_justified then 8 * ((to_ - from_ + 7) / 8) - (to_ - from_) else 0)
          + k) =
      (buf_bit dst
        (base + (if right_justified then 8 * ((to_ - from_ + 7) / 8) - (to_ - from_) else 0)
          + k) || buf_bit src (from_ + k))) ∧
    (∀ p, (p < base + (if right_justified then 8 * ((to_ - from_ + 7) / 8) - (to_ - from_)
              else 0) ∨
          base + (if right_justified then 8 * ((to_ - from_ + 7) / 8) - (to_ - from_) else 0)
            + (to_ - from_) ≤ p) →
      buf_bit (bit_range_extract dst base src from_ to_ right_justified) p = buf_bit dst p) ∧
    (∀ src', (∀ k, k < to_ - from_ → buf_bit src' (from_ + k) = buf_bit src (from_ + k)) →
      bit_range_extract dst base src' from_ to_ right_justified =
        bit_range_extract dst base src from_ to_ right_justified) ∧
    ((∀ p, buf_bit dst p = false) → ∀ k, k < to_ - from_ →
      buf_bit (bit_range_extract dst base src from_ to_ right_justified)
        (base + (if right_justified then 8 * ((to_ - from_ + 7) / 8) - (to_ - from_) else 0)
          + k) = buf_bit src (from_ + k)) := by
  have hoff : base + (if right_justified = true then bits_to_bytes (to_ - from_) * 8 -
      (to_ - from_) else 0) =
      base + (if right_justified then 8 * ((to_ - from_ + 7) / 8) - (to_ - from_) else 0) := by
    unfold bits_to_bytes
    rw [Nat.mul_comm]
  generalize hoffdef :
    base + (if right_justified then 8 * ((to_ - from_ + 7) / 8) - (to_ - from_) else 0) = off
    at hcap hoff ⊢
  have hbit : ∀ p, buf_bit (bit_range_extract dst base src from_ to_ right_justified) p =
      (buf_bit dst p || (decide (off ≤ p ∧ p < off + (to_ - from_)) &&
        buf_bit src (from_ + (p - off)))) := by
    intro p
    unfold bit_range_extract
    simp only [hoff]
    exact buf_bit_bit_range_copy src from_ off (to_ - from_) dst p hcap
  refine ⟨?_, ?_, ?_, ?_, ?_, ?_⟩
  · unfold bit_range_extract
    exact length_bit_range_copy _ _ _ _ _
  · intro hd
    unfold bit_range_extract
    exact isBytes_bit_range_copy _ _ _ _ _ hd
  · intro k hk
    rw [hbit]
    have e1 : off ≤ off + k ∧ off + k < off + (to_ - from_) := by omega
    have e2 : off + k - off = k := by omega
    simp [e1, e2]
  · intro p hp
    rw [hbit]
    have e1 : ¬ (off ≤ p ∧ p < off + (to_ - from_)) := by omega
    simp [e1]
  · intro src' h
    unfold bit_range_extract
    exact bit_range_copy_congr src src' _ _ _ _ h
  · intro hz k hk
    rw [hbit, hz]
    have e1 : off ≤ off + k ∧ off + k < off + (to_ - from_) := by omega
    have e2 : off + k - off = k := by omega
    simp [e1, e2]

theorem bit_range_extract_contract_witness :
    11 < 22 ∧
    0 + (if true then 8 * ((22 - 11 + 7) / 8) - (22 - 11) else 0) + (22 - 11) ≤
      8 * ([0, 0] : List Nat).length ∧
    (bit_range_extract [0, 0] 0 [0x96, 0x4a, 0x8a, 0x5f, 0x12] 11 22 true).length =
      ([0, 0] : List Nat).length :=
  ⟨by decide, by decide,
   (bit_range_extract_contract [0x96, 0x4a, 0x8a, 0x5f, 0x12] [0, 0] 0 11 22 true (by decide)
      (by decide)).1⟩

/-- C14 (the documented example, evaluated): with `src` drawn as `01101001 01010010 01010001
11111010 01001000`, a zeroed 2-byte `dst`, base 0, `from = 11` and `to = 21`, the
left-justified call gives `10010010 10000000`, but the right-justified call gives `00000010
01001010`, not the documented `00000100 10010100`: the loop copies bits `from .. to - 1`,
which are 10 bits. The documented right-justified output is that of `to = 22`. -/
theorem documented_example_evaluated :
    bit_string [0x96, 0x4a, 0x8a, 0x5f, 0x12] 40 =
      [0,1,1,0,1,0,0,1, 0,1,0,1,0,0,1,0, 0,1,0,1,0,0,0,1, 1,1,1,1,1,0,1,0, 0,1,0,0,1,0,0,0] ∧
    bit_string (bit_range_extract [0, 0] 0 [0x96, 0x4a, 0x8a, 0x5f, 0x12] 11 21 false) 16 =
      [1,0,0,1,0,0,1,0, 1,0,0,0,0,0,0,0] ∧
    bit_string (bit_range_extract [0, 0] 0 [0x96, 0x4a, 0x8a, 0x5f, 0x12] 11 21 true) 16 =
      [0,0,0,0,0,0,1,0, 0,1,0,0,1,0,1,0] ∧
    bit_string (bit_range_extract [0, 0] 0 [0x96, 0x4a, 0x8a, 0x5f, 0x12] 11 21 true) 16 ≠
      [0,0,0,0,0,1,0,0, 1,0,0,1,0,1,0,0] ∧
    bit_string (bit_range_extract [0, 0] 0 [0x96, 0x4a, 0x8a, 0x5f, 0x12] 11 22 true) 16 =
      [0,0,0,0,0,1,0,0, 1,0,0,1,0,1,0,0] ∧
    bit_string (bit_range_extract [0, 0] 0 [0x96, 0x4a, 0x8a, 0x5f, 0x12] 11 22 false) 16 =
      [1,0,0,1,0,0,1,0, 1,0,0,0,0,0,0,0] := by
  decide

/-! ## C20: termination of the binary search -/

/-- The ghost list does not change what the search returns. -/
theorem word_search_probes_fst (tbl : Nat → CStr) (word : CStr) :
    ∀ (fuel : Nat) (left right : Int),
      (word_search_probes tbl word fuel left right).map Prod.fst =
        word_search tbl word fuel left right := by
  intro fuel
  induction fuel with
  | zero => intro left right; rfl
  | succ fuel ih =>
    intro left right
    simp only [word_search_probes, word_search]
    split
    · split
      · rfl
      · split
        · rw [← ih, Option.map_map]; rfl
        · rw [← ih, Option.map_map]; rfl
    · rfl

/-- With `right - left < 2 ^ s` the search returns after at most `s` probes, all of them
in `[left, right)`. -/
theorem word_search_probes_bound (tbl : Nat → CStr) (word : CStr) :
    ∀ (s fuel : Nat) (left right : Int), 0 ≤ left → right - left < 2 ^ s → s < fuel →
      ∃ r probes, word_search_probes tbl word fuel left right = some (r, probes) ∧
        probes.length ≤ s ∧ ∀ m, m ∈ probes → left ≤ m ∧ m < right := by
  intro s
  induction s with
  | zero =>
    intro fuel left right _ hs hf
    obtain ⟨fuel', rfl⟩ : ∃ f, fuel = f + 1 := ⟨fuel - 1, by omega⟩
    simp only [word_search_probes]
    rw [if_neg (by simp at hs; omega)]
    exact ⟨-1, [], rfl, by simp, by simp⟩
  | succ s ih =>
    intro fuel left right hl hs hf
    obtain ⟨fuel', rfl⟩ : ∃ f, fuel = f + 1 := ⟨fuel - 1, by omega⟩
    have hp : (2 : Int) ^ (s + 1) = 2 * 2 ^ s := by rw [pow_succ]; ring
    rw [hp] at hs
    simp only [word_search_probes]
    by_cases hlr : left < right
    · rw [if_pos hlr, tdiv_two _ (by omega)]
      split
      · refine ⟨_, _, rfl, by simp, ?_⟩
        intro m hm
        rw [List.mem_singleton.mp hm]
        omega
      · split
        · obtain ⟨r, probes, h1, h2, h3⟩ :=
            ih fuel' left ((left + right) / 2) hl (by omega) (by omega)
          rw [h1]
          refine ⟨r, _, rfl, by simp; omega, ?_⟩
          intro m hm
          rcases List.mem_cons.mp hm with h | h
          · rw [h]; omega
          · have := h3 m h; omega
        · obtain ⟨r, probes, h1, h2, h3⟩ :=
            ih fuel' ((left + right) / 2 + 1) right (by omega) (by omega) (by omega)
          rw [h1]
          refine ⟨r, _, rfl, by simp; omega, ?_⟩
          intro m hm
          rcases List.mem_cons.mp hm with h | h
          · rw [h]; omega
          · have := h3 m h; omega
    · rw [if_neg hlr]
      exact ⟨-1, [], rfl, by simp, by simp⟩

/-- C20 (the binary search terminates): for every string and every table contents
`bip39_mnemonic_word_to_bits` returns, after at most 12 `strcmp` comparisons, every probed
index `mid` being in `[0, 2048)`; an iteration that does not return continues on
`[left, mid)` or `[mid + 1, right)`, both of them shorter than `[left, right)`. -/
theorem word_search_terminates (tbl : Nat → CStr) (word : CStr) :
    (∃ r probes, word_search_probes tbl word 2048 0 2048 = some (r, probes) ∧
      bip39_mnemonic_word_to_bits tbl word = some r ∧ probes.length ≤ 12 ∧
      ∀ m, m ∈ probes → 0 ≤ m ∧ m < 2048) ∧
    (∀ (fuel : Nat) (left right : Int), left < right →
      word_search tbl word (fuel + 1) left right =
        if strcmp word (tbl (Int.tdiv (left + right) 2).toNat) = 0 then
          some (Int.tdiv (left + right) 2)
        else if strcmp word (tbl (Int.tdiv (left + right) 2).toNat) < 0 then
          word_search tbl word fuel left (Int.tdiv (left + right) 2)
        else word_search tbl word fuel (Int.tdiv (left + right) 2 + 1) right) ∧
    (∀ left right : Int, 0 ≤ left → left < right →
      left ≤ Int.tdiv (left + right) 2 ∧ Int.tdiv (left + right) 2 < right ∧
      Int.tdiv (left + right) 2 - left < right - left ∧
      right - (Int.tdiv (left + right) 2 + 1) < right - left) := by
  refine ⟨?_, ?_, ?_⟩
  · obtain ⟨r, probes, h1, h2, h3⟩ :=
      word_search_probes_bound tbl word 12 2048 0 2048 (le_refl _) (by norm_num) (by norm_num)
    refine ⟨r, probes, h1, ?_, h2, h3⟩
    unfold bip39_mnemonic_word_to_bits
    rw [← word_search_probes_fst, h1]
    rfl
  · intro fuel left right hlr
    simp only [word_search]
    rw [if_pos hlr]
  · intro left right hl hlr
    rw [tdiv_two _ (by omega)]
    omega

/-! ## C18: words that are not in the dictionary -/

theorem word_value_of_lookup (tbl : Nat → CStr) (words : List CStr) (i : Nat) (r : Int)
    (hr : bip39_mnemonic_word_to_bits tbl (words.getD i []) = some r) :
    word_value tbl words i = if r = -1 then 2047 else r.toNat := by
  unfold word_value; rw [hr]

/-- The buffer of the decoder's word loop depends on the words only through their
values. -/
theorem decode_words_congr (tbl : Nat → CStr) (words words' : List CStr) (n : Nat)
    (h : ∀ i, i < n → word_value tbl words i = word_value tbl words' i) :
    decode_words tbl words n = decode_words tbl words' n := by
  induction n with
  | zero => rfl
  | succ n ih =>
    obtain ⟨r, hr⟩ := bip39_mnemonic_word_to_bits_isSome tbl (words.getD n [])
    obtain ⟨r', hr'⟩ := bip39_mnemonic_word_to_bits_isSome tbl (words'.getD n [])
    have hb : ∀ (x : Int), (∃ w, bip39_mnemonic_word_to_bits tbl w = some x) →
        x = -1 ∨ (0 ≤ x ∧ x < 2048) := by
      rintro x ⟨w, hw⟩
      rcases bip39_mnemonic_word_to_bits_sound tbl w x hw with h1 | ⟨h1, h2, _⟩
      · exact Or.inl h1
      · exact Or.inr ⟨h1, h2⟩
    have hv := h n (Nat.lt_succ_self n)
    rw [word_value_of_lookup tbl words n r hr, word_value_of_lookup tbl words' n r' hr'] at hv
    have hp : u16_reverse_bits (to_u16 r) >>> 5 = u16_reverse_bits (to_u16 r') >>> 5 := by
      apply Nat.eq_of_testBit_eq
      intro k
      rw [testBit_placed r (hb r ⟨_, hr⟩), testBit_placed r' (hb r' ⟨_, hr'⟩), hv]
    rw [decode_words_succ, decode_words_succ, ih (fun i hi => h i (by omega)), hr, hr']
    simp only [Option.map_some', hp]

/-- The decoder depends on the words only through their values. -/
theorem decode_congr (tbl : Nat → CStr) (sha : List Nat → List Nat) (words words' : List CStr)
    (nr_words : Int) (key_in : List Nat) (kl0 : Int)
    (h : ∀ i, i < nr_words.toNat → word_value tbl words i = word_value tbl words' i) :
    bip39_key_from_mnemonic_words tbl sha words nr_words key_in kl0 =
      bip39_key_from_mnemonic_words tbl sha words' nr_words key_in kl0 := by
  unfold bip39_key_from_mnemonic_words
  rw [decode_words_congr tbl words words' _ h]

/-- A sentence of 12 words whose first eleven values are 2047 and whose last value is
`2032 + c`, `c` being the top nibble of the digest of 16 bytes `0xff`, decodes with return
value 0 to the key of 16 bytes `0xff`. -/
theorem decode_all_ones (tbl : Nat → CStr) (sha : List Nat → List Nat) (words : List CStr)
    (key_in : List Nat) (kl0 : Int)
    (hd : (sha (List.replicate 16 255)).getD 0 0 < 256)
    (h1 : ∀ i, i < 11 → word_value tbl words i = 2047)
    (h2 : word_value tbl words 11 = 2032 + (sha (List.replicate 16 255)).getD 0 0 >>> 4) :
    ∃ r, bip39_key_from_mnemonic_words tbl sha words 12 key_in kl0 = some r ∧
      r.rc = 0 ∧ r.key_len = 16 ∧ r.key.take 16 = List.replicate 16 255 := by
  obtain ⟨r, hr, hkl, _, _, htl, _, hkey, hiff⟩ :=
    decode_spec tbl sha words 12 key_in kl0 (by decide) 16 4 (by decide) (by decide)
  generalize hc : (sha (List.replicate 16 255)).getD 0 0 >>> 4 = c at h2
  have hc16 : c < 16 := by
    rw [← hc, Nat.shiftRight_eq_div_pow]
    omega
  have hX : index_concat (word_value tbl words) 12 = 2 ^ 132 - 16 + c := by
    rw [index_concat_congr _ (fun i => if i < 11 then 2047 else 2032 + c) 12
      (fun i hi => by
        show word_value tbl words i = if i < 11 then 2047 else 2032 + c
        rcases Nat.lt_or_ge i 11 with h | h
        · rw [if_pos h]; exact h1 i h
        · have e : i = 11 := by omega
          rw [if_neg (by omega), e]; exact h2)]
    simp [index_concat, Finset.sum_range_succ]
    omega
  rw [hX] at hkey hiff
  have htake : r.key.take 16 = List.replicate 16 255 := by
    apply list_eq_of_getD _ _ (by rw [htl]; simp)
    intro j hj
    rw [htl] at hj
    rw [getD_take _ _ _ hj, hkey j hj, Nat.shiftRight_eq_div_pow]
    interval_cases j <;> simp <;> omega
  refine ⟨r, hr, ?_, hkl, htake⟩
  rw [htake, hc] at hiff
  apply (hiff hd).mpr
  norm_num
  omega

/-- C18 (unknown words decode as index 2047): `u16_reverse_bits(-1) >> 5` is `0x7ff`; the
lookup of a string that is not in the (sorted) table returns -1, which is not checked; so
the result of `bip39_key_from_mnemonic_words` (return code, key bytes, `key_len`) is the
same as on the sentence in which each word that is not in the table is replaced by table
entry 2047; e.g. eleven words that are not in the table followed by the last word of the
all-`0xff` 16-byte vector give return value 0 and the key of 16 bytes `0xff`. -/
theorem unknown_words_decode_as_2047 (tbl : Nat → CStr) (sha : List Nat → List Nat)
    (hs : SortedTable tbl) :
    u16_reverse_bits (to_u16 (-1)) >>> 5 = 0x7ff ∧
    (∀ w, IsCStr w → (¬ ∃ k, k < 2048 ∧ tbl k = w) →
      bip39_mnemonic_word_to_bits tbl w = some (-1)) ∧
    (∀ (words words' : List CStr) (nr_words : Int) (key_in : List Nat) (kl0 : Int),
      (∀ i, i < nr_words.toNat → IsCStr (words.getD i []) ∧
        ((∃ k, k < 2048 ∧ tbl k = words.getD i []) → words'.getD i [] = words.getD i []) ∧
        ((¬ ∃ k, k < 2048 ∧ tbl k = words.getD i []) → words'.getD i [] = tbl 2047)) →
      bip39_key_from_mnemonic_words tbl sha words nr_words key_in kl0 =
        bip39_key_from_mnemonic_words tbl sha words' nr_words key_in kl0) ∧
    (∀ (words : List CStr) (key_in : List Nat) (kl0 : Int),
      IsDigest (sha (List.replicate 16 255)) →
      (∀ i, i < 11 → IsCStr (words.getD i []) ∧ ¬ ∃ k, k < 2048 ∧ tbl k = words.getD i []) →
      words.getD 11 [] = tbl (2032 + (sha (List.replicate 16 255)).getD 0 0 >>> 4) →
      ∃ r, bip39_key_from_mnemonic_words tbl sha words 12 key_in kl0 = some r ∧
        r.rc = 0 ∧ r.key_len = 16 ∧ r.key.take 16 = List.replicate 16 255) := by
  refine ⟨by decide, ?_, ?_, ?_⟩
  · intro w hw hnot
    obtain ⟨r, hr⟩ := bip39_mnemonic_word_to_bits_isSome tbl w
    rcases bip39_mnemonic_word_to_bits_sound tbl w r hr with h | ⟨h1, h2, h3⟩
    · rw [hr, h]
    · exact absurd ⟨r.toNat, by omega,
        (eq_of_strcmp_eq_zero _ _ hw (hs.1 _ (by omega)) h3).symm⟩ hnot
  · intro words words' nr_words key_in kl0 h
    apply decode_congr
    intro i hi
    obtain ⟨hc, hin, hout⟩ := h i hi
    by_cases hmem : ∃ k, k < 2048 ∧ tbl k = words.getD i []
    · have e := hin hmem
      unfold word_value
      rw [e]
    · have e := hout hmem
      rw [word_value_unknown tbl hs words i hc (fun k hk he => hmem ⟨k, hk, he⟩),
        word_value_entry tbl hs words' i 2047 (by norm_num) e]
  · intro words key_in kl0 hd h11 hlast
    have hd0 := digest_head_lt hd
    apply decode_all_ones tbl sha words key_in kl0 hd0
    · intro i hi
      exact word_value_unknown tbl hs words i (h11 i hi).1
        (fun k hk he => (h11 i hi).2 ⟨k, hk, he⟩)
    · apply word_value_entry tbl hs words 11 _ _ hlast
      have : (sha (List.replicate 16 255)).getD 0 0 >>> 4 < 16 := by
        rw [Nat.shiftRight_eq_div_pow]; omega
      omega

theorem unknown_words_decode_as_2047_witness :
    SortedTable demo_tbl ∧
    ∃ r, bip39_key_from_mnemonic_words demo_tbl demo_sha
        (List.replicate 11 [255, 255, 255] ++ [demo_tbl 2037]) 12 (List.replicate 32 0) 0
        = some r ∧
      r.rc = 0 ∧ r.key_len = 16 ∧ r.key.take 16 = List.replicate 16 255 :=
  ⟨demo_tbl_sorted,
   (unknown_words_decode_as_2047 demo_tbl demo_sha demo_tbl_sorted).2.2.2
     (List.replicate 11 [255, 255, 255] ++ [demo_tbl 2037]) (List.replicate 32 0) 0
     (by decide)
     (fun i hi => ⟨by interval_cases i <;> decide,
       fun ⟨k, _, he⟩ => by interval_cases i <;> simp [demo_tbl] at he⟩)
     (by decide)⟩

/-! ## C17: canonical mnemonic -/

/-- Index `i` of a concatenation of `n` indices is its 11-bit field `n - 1 - i`. -/
theorem index_concat_digit (x : Nat → Nat) (n : Nat) (hx : ∀ i, i < n → x i < 2048)
    (i : Nat) (hi : i < n) :
    (index_concat x n >>> (11 * (n - 1 - i))) % 2048 = x i := by
  apply Nat.eq_of_testBit_eq
  intro t
  rw [Nat.testBit_mod_two_pow _ 11, Nat.testBit_shiftRight, testBit_index_concat x n hx]
  by_cases ht : t < 11
  · have e1 : 11 * (n - 1 - i) + t < 11 * n := by omega
    have e2 : n - 1 - (11 * (n - 1 - i) + t) / 11 = i := by omega
    have e3 : (11 * (n - 1 - i) + t) % 11 = t := by omega
    rw [e2, e3]
    simp [ht, e1]
  · have : (x i).testBit t = false :=
      Nat.testBit_lt_two_pow (lt_of_lt_of_le (hx i hi)
        (Nat.pow_le_pow_right (show 0 < 2 by norm_num) (not_lt.mp ht)))
    simp [ht, this]

/-- The bytes of a decoded key followed by a digest byte whose top `cs` bits are the low
`cs` bits of `X` have the big-endian value `X` shifted left by `8 - cs`. -/
theorem be_value_decoded (k : List Nat) (X n L cs d : Nat) (hkb : IsBytes k)
    (hk : k.length = L)
    (hkey : ∀ j, j < L → k.getD j 0 = (X >>> (11 * n - 8 * (j + 1))) % 256)
    (hX : X < 2 ^ (11 * n)) (hcs : 11 * n = 8 * L + cs) (hcs8 : cs ≤ 8) (hd : d < 256)
    (hchk : X % 2 ^ cs = d >>> (8 - cs)) :
    be_value (k ++ [d]) >>> (8 - cs) = X := by
  have hbytes : IsBytes (k ++ [d]) := isBytes_append hkb hd
  have hlen : (k ++ [d]).length = L + 1 := by simp [hk]
  apply Nat.eq_of_testBit_eq
  intro q
  rw [Nat.testBit_shiftRight, testBit_be_value _ hbytes, hlen]
  by_cases hq : q < 11 * n
  · have e1 : 8 - cs + q < 8 * (L + 1) := by omega
    by_cases hq2 : q < cs
    · have e2 : L + 1 - 1 - (8 - cs + q) / 8 = L := by omega
      have e3 : (8 - cs + q) % 8 = 8 - cs + q := by omega
      rw [e2, e3, List.getD_append_right _ _ _ _ (by omega), show L - k.length = 0 by omega]
      have h1 : (X % 2 ^ cs).testBit q = (d >>> (8 - cs)).testBit q := by rw [hchk]
      rw [Nat.testBit_mod_two_pow, Nat.testBit_shiftRight] at h1
      simp only [hq2, decide_True, Bool.true_and] at h1
      simp [e1, h1]
    · have e2 : L + 1 - 1 - (8 - cs + q) / 8 < L := by omega
      rw [List.getD_append _ _ _ _ (by omega), hkey _ e2, testBit_mod_256,
        Nat.testBit_shiftRight]
      have e3 : (8 - cs + q) % 8 < 8 := Nat.mod_lt _ (by norm_num)
      have e4 : 11 * n - 8 * (L + 1 - 1 - (8 - cs + q) / 8 + 1) + (8 - cs + q) % 8 = q := by
        omega
      rw [e4]
      simp [e1, e3]
  · have e1 : ¬ 8 - cs + q < 8 * (L + 1) := by omega
    have : X.testBit q = false :=
      Nat.testBit_lt_two_pow (lt_of_lt_of_le hX
        (Nat.pow_le_pow_right (show 0 < 2 by norm_num) (not_lt.mp hq)))
    simp [e1, this]

/-- For a sentence of table words that decodes with return value 0: the decoded key `k`
has the valid length `L`, its bytes are bytes, and each index `x_i` is the `i`-th group of
`k ‖ sha256(k)[0]`. -/
theorem groups_of_decoded (tbl : Nat → CStr) (sha : List Nat → List Nat) (words : List CStr)
    (n : Nat) (x : Nat → Nat) (key_in : List Nat) (kl0 : Int) (r : DecodeOut)
    (hs : SortedTable tbl) (hsha : ∀ m, IsDigest (sha m)) (hn : ValidWordCount n)
    (hx : ∀ i, i < n → x i < 2048 ∧ words.getD i [] = tbl (x i))
    (hr : bip39_key_from_mnemonic_words tbl sha words (n : Int) key_in kl0 = some r)
    (hrc : r.rc = 0) :
    (r.key.take ((11 * n - 1) / 8)).length = (11 * n - 1) / 8 ∧
    IsBytes (r.key.take ((11 * n - 1) / 8)) ∧
    ∀ i, i < n → x i =
      (be_value (r.key.take ((11 * n - 1) / 8) ++
          [(sha (r.key.take ((11 * n - 1) / 8))).getD 0 0]) >>>
        (8 * ((11 * n - 1) / 8 + 1) - 11 * (i + 1))) % 2048 := by
  have hn' : n = 12 ∨ n = 15 ∨ n = 18 ∨ n = 21 ∨ n = 24 := hn
  obtain ⟨r', hr', _, _, _, htl, _, hkey, hiff⟩ :=
    decode_spec tbl sha words n key_in kl0 hn _ _ rfl rfl
  rw [hr] at hr'
  have hrr : r' = r := (Option.some.inj hr').symm
  subst hrr
  have hX : index_concat (word_value tbl words) n = index_concat x n :=
    index_concat_congr _ _ n
      (fun i hi => word_value_entry tbl hs words i (x i) (hx i hi).1 (hx i hi).2)
  rw [hX] at hkey hiff
  generalize hLdef : (11 * n - 1) / 8 = L at htl hkey hiff ⊢
  have hd := digest_head_lt (hsha (r'.key.take L))
  have hchk := (hiff hd).mp hrc
  have hkb : IsBytes (r'.key.take L) := by
    intro b hb
    obtain ⟨j, hj, hbj⟩ := List.getElem_of_mem hb
    have h1 : (r'.key.take L).getD j 0 = b := by
      rw [List.getD_eq_getElem _ _ hj, hbj]
    rw [htl] at hj
    rw [getD_take _ _ _ hj, hkey j hj] at h1
    rw [← h1]
    exact Nat.mod_lt _ (by norm_num)
  have hxlt : ∀ i, i < n → x i < 2048 := fun i hi => (hx i hi).1
  have hbe := be_value_decoded (r'.key.take L) (index_concat x n) n L (11 * n - 8 * L)
    ((sha (r'.key.take L)).getD 0 0) hkb htl
    (fun j hj => by rw [getD_take _ _ _ hj]; exact hkey j hj)
    (index_concat_lt x n hxlt) (by omega) (by omega) hd hchk
  refine ⟨htl, hkb, ?_⟩
  intro i hi
  rw [← index_concat_digit x n hxlt i hi, ← hbe, ← Nat.shiftRight_add]
  have e : 8 - (11 * n - 8 * L) + 11 * (n - 1 - i) = 8 * (L + 1) - 11 * (i + 1) := by omega
  rw [e]

theorem index_concat_last (x : Nat → Nat) (m cs : Nat) (hcs : cs ≤ 11) :
    index_concat x (m + 1) / 2 ^ cs = 2 ^ (11 - cs) * index_concat x m + x m / 2 ^ cs ∧
    index_concat x (m + 1) % 2 ^ cs = x m % 2 ^ cs := by
  have e : (2 : Nat) ^ 11 = 2 ^ cs * 2 ^ (11 - cs) := by
    rw [← pow_add, show cs + (11 - cs) = 11 by omega]
  rw [index_concat_succ, e, Nat.mul_assoc]
  exact ⟨Nat.mul_add_div (Nat.two_pow_pos cs) _ _, Nat.mul_add_mod _ _ _⟩

/-- Changing only the low `cs` bits of the last index changes neither the key bytes nor the
bits above, and changes the low `cs` bits of the concatenation. -/
theorem index_concat_change_last (x x2 : Nat → Nat) (m cs : Nat) (hcs : cs ≤ 11)
    (hsame : ∀ i, i < m → x2 i = x i) (hq : x2 m / 2 ^ cs = x m / 2 ^ cs)
    (hne : x2 m ≠ x m) :
    index_concat x2 (m + 1) / 2 ^ cs = index_concat x (m + 1) / 2 ^ cs ∧
    index_concat x2 (m + 1) % 2 ^ cs ≠ index_concat x (m + 1) % 2 ^ cs := by
  have h1 := index_concat_last x m cs hcs
  have h2 := index_concat_last x2 m cs hcs
  rw [index_concat_congr x2 x m hsame] at h2
  refine ⟨by rw [h1.1, h2.1, hq], ?_⟩
  rw [h1.2, h2.2]
  intro h
  apply hne
  rw [← Nat.div_add_mod (x2 m) (2 ^ cs), ← Nat.div_add_mod (x m) (2 ^ cs), hq, h]

/-- C17 (canonical mnemonic): for a sentence `w` of valid word count whose words are all in
the sorted table, if `bip39_key_from_mnemonic_words(w)` returns 0 with key `k`, then
`bip39_key_to_mnemonic_words(k)` returns 0 with exactly the words of `w`; a second sentence
of table words that decodes with 0 to the same key has the same word count and the same
words; and a sentence that differs from `w` only in the checksum bits of its last word
decodes with -2. -/
theorem canonical_mnemonic (tbl : Nat → CStr) (sha : List Nat → List Nat) (words : List CStr)
    (n : Nat) (x : Nat → Nat) (key_in : List Nat) (kl0 : Int) (r : DecodeOut)
    (hs : SortedTable tbl) (hsha : ∀ m, IsDigest (sha m)) (hn : ValidWordCount n)
    (hx : ∀ i, i < n → x i < 2048 ∧ words.getD i [] = tbl (x i))
    (hr : bip39_key_from_mnemonic_words tbl sha words (n : Int) key_in kl0 = some r)
    (hrc : r.rc = 0) :
    (∀ (ws0 : List (Option CStr)) (nw0 : Int), ws0.length = 24 →
      (bip39_key_to_mnemonic_words tbl sha (r.key.take ((11 * n - 1) / 8))
        (((11 * n - 1) / 8 : Nat) : Int) ws0 nw0).rc = 0 ∧
      (bip39_key_to_mnemonic_words tbl sha (r.key.take ((11 * n - 1) / 8))
        (((11 * n - 1) / 8 : Nat) : Int) ws0 nw0).nr_words = (n : Int) ∧
      ∀ i, i < n →
        (bip39_key_to_mnemonic_words tbl sha (r.key.take ((11 * n - 1) / 8))
          (((11 * n - 1) / 8 : Nat) : Int) ws0 nw0).words.getD i none =
            some (words.getD i [])) ∧
    (∀ (n2 : Nat) (words2 : List CStr) (x2 : Nat → Nat) (key_in2 : List Nat) (kl02 : Int)
        (r2 : DecodeOut), ValidWordCount n2 →
      (∀ i, i < n2 → x2 i < 2048 ∧ words2.getD i [] = tbl (x2 i)) →
      bip39_key_from_mnemonic_words tbl sha words2 (n2 : Int) key_in2 kl02 = some r2 →
      r2.rc = 0 → r2.key.take ((11 * n2 - 1) / 8) = r.key.take ((11 * n - 1) / 8) →
      n2 = n ∧ ∀ i, i < n → words2.getD i [] = words.getD i []) ∧
    (∀ (words2 : List CStr) (x2 : Nat → Nat) (key_in2 : List Nat) (kl02 : Int),
      (∀ i, i < n → x2 i < 2048 ∧ words2.getD i [] = tbl (x2 i)) →
      (∀ i, i + 1 < n → x2 i = x i) →
      x2 (n - 1) / 2 ^ (11 * n - 8 * ((11 * n - 1) / 8)) =
        x (n - 1) / 2 ^ (11 * n - 8 * ((11 * n - 1) / 8)) →
      x2 (n - 1) ≠ x (n - 1) →
      ∃ r2, bip39_key_from_mnemonic_words tbl sha words2 (n : Int) key_in2 kl02 = some r2 ∧
        r2.rc = -2 ∧ r2.key.take ((11 * n - 1) / 8) = r.key.take ((11 * n - 1) / 8)) := by
  have hn' : n = 12 ∨ n = 15 ∨ n = 18 ∨ n = 21 ∨ n = 24 := hn
  obtain ⟨hklen, hkb, hg⟩ := groups_of_decoded tbl sha words n x key_in kl0 r hs hsha hn hx hr hrc
  refine ⟨?_, ?_, ?_⟩
  · intro ws0 nw0 hws0
    have hvalid : ValidKeyLen (r.key.take ((11 * n - 1) / 8)).length := by
      rw [hklen]; unfold ValidKeyLen; omega
    have hv := encode_of_valid tbl sha _ ws0 nw0 hvalid
    have hent := encode_word_entry tbl sha _ ws0 nw0 hvalid hkb
      (digest_head_lt (hsha _)) hws0
    rw [hklen] at hv hent
    have hnw : (8 * ((11 * n - 1) / 8) + 10) / 11 = n := by omega
    rw [hnw] at hent
    refine ⟨by rw [hv], by rw [hv, hnw], ?_⟩
    intro i hi
    rw [hent i hi, ← hg i hi, (hx i hi).2]
  · intro n2 words2 x2 key_in2 kl02 r2 hn2 hx2 hr2 hrc2 hsame
    have hn2' : n2 = 12 ∨ n2 = 15 ∨ n2 = 18 ∨ n2 = 21 ∨ n2 = 24 := hn2
    obtain ⟨hklen2, _, hg2⟩ :=
      groups_of_decoded tbl sha words2 n2 x2 key_in2 kl02 r2 hs hsha hn2 hx2 hr2 hrc2
    have hLL : (11 * n2 - 1) / 8 = (11 * n - 1) / 8 := by
      rw [← hklen2, ← hklen, hsame]
    have hnn : n2 = n := by omega
    subst hnn
    refine ⟨rfl, ?_⟩
    intro i hi
    rw [(hx2 i hi).2, (hx i hi).2, hg2 i hi, hg i hi, hsame]
  · intro words2 x2 key_in2 kl02 hx2 hsame hq hne
    obtain ⟨m, hm⟩ : ∃ m, n = m + 1 := ⟨n - 1, by omega⟩
    obtain ⟨r1, hr1, _, _, _, htl1, _, hkey1, hiff1⟩ :=
      decode_spec tbl sha words n key_in kl0 hn _ _ rfl rfl
    rw [hr] at hr1
    have hrr : r1 = r := (Option.some.inj hr1).symm
    subst hrr
    obtain ⟨r2, hr2, _, _, hrc2, htl2, _, hkey2, hiff2⟩ :=
      decode_spec tbl sha words2 n key_in2 kl02 hn _ _ rfl rfl
    have hX1 : index_concat (word_value tbl words) n = index_concat x n :=
      index_concat_congr _ _ n
        (fun i hi => word_value_entry tbl hs words i (x i) (hx i hi).1 (hx i hi).2)
    have hX2 : index_concat (word_value tbl words2) n = index_concat x2 n :=
      index_concat_congr _ _ n
        (fun i hi => word_value_entry tbl hs words2 i (x2 i) (hx2 i hi).1 (hx2 i hi).2)
    rw [hX1] at hkey1 hiff1
    rw [hX2] at hkey2 hiff2
    generalize hLdef : (11 * n - 1) / 8 = L at *
    generalize hcsdef : 11 * n - 8 * L = cs at *
    have hch : index_concat x2 n / 2 ^ cs = index_concat x n / 2 ^ cs ∧
        index_concat x2 n % 2 ^ cs ≠ index_concat x n % 2 ^ cs := by
      rw [hm]
      rw [hm, Nat.add_sub_cancel] at hq hne
      exact index_concat_change_last x x2 m cs (by omega)
        (fun i hi => hsame i (by omega)) hq hne
    have hkk : r2.key.take L = r1.key.take L := by
      apply list_eq_of_getD _ _ (by rw [htl1, htl2])
      intro j hj
      rw [htl2] at hj
      rw [getD_take _ _ _ hj, getD_take _ _ _ hj, hkey1 j hj, hkey2 j hj]
      have e : 11 * n - 8 * (j + 1) = cs + (11 * n - 8 * (j + 1) - cs) := by omega
      rw [e, Nat.shiftRight_add, Nat.shiftRight_add, Nat.shiftRight_eq_div_pow _ cs,
        Nat.shiftRight_eq_div_pow _ cs, hch.1]
    refine ⟨r2, hr2, ?_, hkk⟩
    rcases hrc2 with h0 | h2
    · exfalso
      have hd := digest_head_lt (hsha (r1.key.take L))
      have c1 := (hiff1 hd).mp hrc
      rw [hkk] at hiff2
      have c2 := (hiff2 hd).mp h0
      exact hch.2 (by rw [c1, c2])
    · exact h2

set_option maxRecDepth 100000 in
theorem canonical_mnemonic_witness :
    SortedTable demo_tbl ∧ (∀ m, IsDigest (demo_sha m)) ∧ ValidWordCount 12 ∧
    (∀ i, i < 12 → (fun i => if i < 11 then 2047 else 2037) i < 2048 ∧
      (List.replicate 11 (demo_tbl 2047) ++ [demo_tbl 2037]).getD i [] =
        demo_tbl ((fun i => if i < 11 then 2047 else 2037) i)) ∧
    bip39_key_from_mnemonic_words demo_tbl demo_sha
        (List.replicate 11 (demo_tbl 2047) ++ [demo_tbl 2037]) ((12 : Nat) : Int)
        (List.replicate 32 0) 0 =
      some ⟨0, List.replicate 16 255 ++ List.replicate 16 0, 16, 12⟩ ∧
    (⟨0, List.replicate 16 255 ++ List.replicate 16 0, 16, 12⟩ : DecodeOut).rc = 0 ∧
    (bip39_key_to_mnemonic_words demo_tbl demo_sha
      ((⟨0, List.replicate 16 255 ++ List.replicate 16 0, 16, 12⟩ : DecodeOut).key.take
        ((11 * 12 - 1) / 8))
      (((11 * 12 - 1) / 8 : Nat) : Int) (List.replicate 24 none) 0).nr_words = ((12 : Nat) : Int) :=
  ⟨demo_tbl_sorted, demo_sha_digest, by decide, by decide, by decide, rfl,
   ((canonical_mnemonic demo_tbl demo_sha (List.replicate 11 (demo_tbl 2047) ++ [demo_tbl 2037])
      12 (fun i => if i < 11 then 2047 else 2037) (List.replicate 32 0) 0
      ⟨0, List.replicate 16 255 ++ List.replicate 16 0, 16, 12⟩ demo_tbl_sorted
      demo_sha_digest (by decide) (by decide) (by decide) rfl).1
        (List.replicate 24 none) 0 (by decide)).2.1⟩

/-! ## C19: buffer accesses -/

theorem getElem?_eq_some_getD (m : List Nat) (i : Nat) (h : i < m.length) :
    m[i]? = some (m.getD i 0) := by
  rw [List.getD_eq_getElem _ _ h, List.getElem?_eq_getElem h]

theorem is_bit_set_u8_chk_eq (m : List Nat) (b : Nat) (h : b / 8 < m.length) :
    is_bit_set_u8_chk m b = some (is_bit_set_u8 m b) := by
  unfold is_bit_set_u8_chk is_bit_set_u8
  rw [getElem?_eq_some_getD m _ h]
  rfl

theorem bit_set_u8_chk_eq (m : List Nat) (b : Nat) (h : b / 8 < m.length) :
    bit_set_u8_chk m b = some (bit_set_u8 m b) := by
  unfold bit_set_u8_chk bit_set_u8
  rw [getElem?_eq_some_getD m _ h]
  rfl

theorem bit_range_copy_chk_eq (src : List Nat) (f w n : Nat) (dst : List Nat)
    (hs : f + n ≤ 8 * src.length) (hd : w + n ≤ 8 * dst.length) :
    bit_range_copy_chk src f w n dst = some (bit_range_copy src f w n dst) := by
  induction n with
  | zero => rfl
  | succ n ih =>
    simp only [bit_range_copy_chk, bit_range_copy]
    rw [ih (by omega) (by omega), Option.some_bind,
      is_bit_set_u8_chk_eq src _ (by omega), Option.some_bind]
    split
    · exact bit_set_u8_chk_eq _ _ (by rw [length_bit_range_copy]; omega)
    · rfl

theorem mem_bit_range_copy_trace (src : List Nat) (f w n : Nat) :
    (∀ rd, rd ∈ (bit_range_copy_trace src f w n).1 → f ≤ rd ∧ rd < f + n) ∧
    (∀ wr, wr ∈ (bit_range_copy_trace src f w n).2 → w ≤ wr ∧ wr < w + n) := by
  induction n with
  | zero => simp [bit_range_copy_trace]
  | succ n ih =>
    simp only [bit_range_copy_trace]
    constructor
    · intro rd hrd
      rcases List.mem_append.mp hrd with h | h
      · have := ih.1 rd h; omega
      · rw [List.mem_singleton.mp h]; omega
    · intro wr hwr
      split at hwr
      · rcases List.mem_append.mp hwr with h | h
        · have := ih.2 wr h; omega
        · rw [List.mem_singleton.mp h]; omega
      · have := ih.2 wr hwr; omega

theorem reverse_bytes_chk_eq (m : List Nat) (n : Nat) (h : n ≤ m.length) :
    reverse_bytes_chk m n = some (reverse_bytes m n) := by
  induction n with
  | zero => rfl
  | succ n ih =>
    simp only [reverse_bytes_chk, reverse_bytes]
    rw [ih (by omega), Option.some_bind,
      getElem?_eq_some_getD _ _ (by rw [length_reverse_bytes]; omega)]
    rfl

theorem bip39_mnemonic_word_chk_of_lt (tbl : Nat → CStr) (n : Nat) (hn : n < 2048) :
    bip39_mnemonic_word_chk tbl (n : Int) = some (some (tbl n)) := by
  unfold bip39_mnemonic_word_chk
  rw [if_neg (by rw [land_not_2047 n hn]; simp), if_pos (by omega)]
  simp

theorem encode_words_chk_eq (tbl : Nat → CStr) (kwc : List Nat) (words : List (Option CStr))
    (n : Nat) (hk : 11 * n ≤ 8 * kwc.length) (hw : n ≤ words.length) :
    encode_words_chk tbl kwc n words = some (encode_words tbl kwc n words) := by
  induction n with
  | zero => rfl
  | succ n ih =>
    obtain ⟨h1, h2, _⟩ := encode_words_spec tbl kwc words n
    have hx : bit_range_extract_chk [0, 0] 0 kwc (11 * n) (11 * (n + 1)) true =
        some (bit_range_extract [0, 0] 0 kwc (11 * n) (11 * (n + 1)) true) := by
      have e : 11 * (n + 1) - 11 * n = 11 := by omega
      unfold bit_range_extract_chk bit_range_extract
      simp only [e, bits_to_bytes]
      exact bit_range_copy_chk_eq _ _ _ _ _ (by omega) (by simp)
    have hl : (bit_range_extract [0, 0] 0 kwc (11 * n) (11 * (n + 1)) true).length = 2 := by
      unfold bit_range_extract
      rw [length_bit_range_copy]
      rfl
    simp only [encode_words_chk]
    rw [ih (by omega) (by omega), Option.some_bind, h1]
    simp only [Bool.false_eq_true, if_false]
    rw [hx, Option.some_bind, getElem?_eq_some_getD _ 0 (by omega), Option.some_bind,
      getElem?_eq_some_getD _ 1 (by omega), Option.some_bind]
    have hg : (u8_reverse_bits
        ((bit_range_extract [0, 0] 0 kwc (11 * n) (11 * (n + 1)) true).getD 0 0) <<< 8) |||
        u8_reverse_bits ((bit_range_extract [0, 0] 0 kwc (11 * n) (11 * (n + 1)) true).getD 1 0)
        = group_value kwc n := rfl
    simp only [hg]
    rw [bip39_mnemonic_word_chk_of_lt tbl _ (group_value_lt kwc n), Option.some_bind,
      if_pos (by omega), encode_words_succ, h1,
      bip39_mnemonic_word_of_lt tbl _ (group_value_lt kwc n)]
    rfl

theorem bip39_key_to_mnemonic_words_chk_eq (tbl : Nat → CStr) (sha : List Nat → List Nat)
    (key : List Nat) (words : List (Option CStr)) (nw0 : Int) (hL : ValidKeyLen key.length)
    (hd : IsDigest (sha key)) (hw : words.length = 24) :
    bip39_key_to_mnemonic_words_chk tbl sha key (key.length : Int) words nw0 =
      some (bip39_key_to_mnemonic_words tbl sha key (key.length : Int) words nw0) := by
  have hL' : key.length = 16 ∨ key.length = 20 ∨ key.length = 24 ∨ key.length = 28 ∨
      key.length = 32 := hL
  have hle : key.length ≤ 32 := by omega
  have hc : ¬ ((key.length : Int) < 16 ∨ (key.length : Int) > 32 ∨
      Int.tmod ((key.length : Int) * 8) 32 ≠ 0) := by
    rw [key_len_check]; omega
  have hd0 : (sha key)[0]? = some ((sha key).getD 0 0) :=
    getElem?_eq_some_getD _ 0 (by rw [hd.1]; norm_num)
  have e : ((key.length : Int) + 1).toNat = key.length + 1 := by omega
  unfold bip39_key_to_mnemonic_words_chk bip39_key_to_mnemonic_words
  simp only [nr_words_of_key_len _ hle, if_neg hc, Int.toNat_ofNat, List.take_length,
    lt_irrefl, if_false, hd0, Option.some_bind, e]
  rw [reverse_bytes_chk_eq _ _ (by simp), Option.some_bind,
    encode_words_chk_eq tbl _ words _ (by rw [length_reverse_bytes]; simp; omega) (by omega)]
  rfl

theorem decode_words_chk_eq (tbl : Nat → CStr) (words : List CStr) (n : Nat) (hn : n ≤ 24)
    (hw : n ≤ words.length) :
    decode_words_chk tbl words n = decode_words tbl words n := by
  induction n with
  | zero => rfl
  | succ n ih =>
    obtain ⟨kwc, h1, h2, _⟩ := decode_words_spec tbl words n (by omega)
    have hwi : words[n]? = some (words.getD n []) := by
      rw [List.getD_eq_getElem _ _ (by omega), List.getElem?_eq_getElem (by omega)]
    simp only [decode_words_chk]
    rw [ih (by omega) (by omega), decode_words_succ, h1, Option.some_bind, Option.some_bind,
      hwi, Option.some_bind]
    cases hlk : bip39_mnemonic_word_to_bits tbl (words.getD n []) with
    | none => rfl
    | some bits =>
      rw [Option.some_bind, Option.map_some']
      have hx : ∀ mb : List Nat, mb.length = 2 →
          bit_range_extract_chk kwc (11 * n) mb 0 11 false =
            some (bit_range_extract kwc (11 * n) mb 0 11 false) := by
        intro mb hmb
        unfold bit_range_extract_chk bit_range_extract
        exact bit_range_copy_chk_eq _ _ _ _ _ (by rw [hmb]; simp) (by rw [h2]; simp; omega)
      simp only
      rw [hx _ (by simp)]
      rfl

theorem bip39_key_from_mnemonic_words_chk_eq (tbl : Nat → CStr) (sha : List Nat → List Nat)
    (words : List CStr) (n : Nat) (key_in : List Nat) (kl0 : Int) (hn : ValidWordCount n)
    (hsha : ∀ m, IsDigest (sha m)) (hw : n ≤ words.length) (hk : key_in.length = 32) :
    bip39_key_from_mnemonic_words_chk tbl sha words (n : Int) key_in kl0 =
      bip39_key_from_mnemonic_words tbl sha words (n : Int) key_in kl0 := by
  have hn' : n = 12 ∨ n = 15 ∨ n = 18 ∨ n = 21 ∨ n = 24 := hn
  have hc : ¬ ((n : Int) ≠ 12 ∧ (n : Int) ≠ 15 ∧ (n : Int) ≠ 18 ∧ (n : Int) ≠ 21 ∧
      (n : Int) ≠ 24) := by omega
  obtain ⟨kwc, h1, h2, _⟩ := decode_words_spec tbl words n (by omega)
  have e3 : ((((11 * n - 1) / 8 : Nat) : Int) + 1).toNat = (11 * n - 1) / 8 + 1 := by omega
  unfold bip39_key_from_mnemonic_words_chk bip39_key_from_mnemonic_words
  simp only [key_len_of_nr_words n (by omega) (by omega), if_neg hc, Int.toNat_ofNat, e3]
  rw [decode_words_chk_eq tbl words n (by omega) hw, h1, Option.some_bind, Option.map_some',
    reverse_bytes_chk_eq _ _ (by rw [h2]; omega), Option.some_bind,
    getElem?_eq_some_getD _ 0 (by rw [(hsha _).1]; norm_num), Option.some_bind,
    if_neg (by rw [length_reverse_bytes, h2, hk]; omega),
    getElem?_eq_some_getD _ _ (by rw [length_reverse_bytes, h2]; omega), Option.map_some']

/-- C19 (buffer accesses stay in bounds). For a key of valid length the encoder with
checked accesses succeeds with the result of the encoder; in word `i` every bit it tests in
`key_with_checksum` has index `< 8 * (key_len + 1)` (the initialised bytes), every bit it
sets in the scratch buffer has index in `[5, 16)`, and the table index is `< 2048`. For a
valid word count the decoder with checked accesses gives the result of the decoder, which
returns; in word `i` every bit it tests in the scratch buffer has index `< 11` and every
bit it sets in `key_with_checksum` has index `< 11 * nr_words ≤ 8 * (key_len + 1) ≤ 264`. -/
theorem accesses_in_bounds (tbl : Nat → CStr) (sha : List Nat → List Nat)
    (hsha : ∀ m, IsDigest (sha m)) :
    (∀ (key : List Nat) (words : List (Option CStr)) (nw0 : Int),
      ValidKeyLen key.length → words.length = 24 →
      bip39_key_to_mnemonic_words_chk tbl sha key (key.length : Int) words nw0 =
        some (bip39_key_to_mnemonic_words tbl sha key (key.length : Int) words nw0)) ∧
    (∀ (L i : Nat) (kwc : List Nat), ValidKeyLen L → i < (8 * L + 10) / 11 →
      (∀ rd, rd ∈ (bit_range_extract_trace 0 kwc (11 * i) (11 * (i + 1)) true).1 →
        rd < 8 * (L + 1)) ∧
      (∀ wr, wr ∈ (bit_range_extract_trace 0 kwc (11 * i) (11 * (i + 1)) true).2 →
        5 ≤ wr ∧ wr < 16) ∧
      group_value kwc i < 2048) ∧
    (∀ (words : List CStr) (n : Nat) (key_in : List Nat) (kl0 : Int),
      ValidWordCount n → n ≤ words.length → key_in.length = 32 →
      bip39_key_from_mnemonic_words_chk tbl sha words (n : Int) key_in kl0 =
        bip39_key_from_mnemonic_words tbl sha words (n : Int) key_in kl0 ∧
      ∃ r, bip39_key_from_mnemonic_words tbl sha words (n : Int) key_in kl0 = some r) ∧
    (∀ (n i : Nat) (mnemonic_bits : List Nat), ValidWordCount n → i < n →
      (∀ rd, rd ∈ (bit_range_extract_trace (11 * i) mnemonic_bits 0 11 false).1 → rd < 11) ∧
      (∀ wr, wr ∈ (bit_range_extract_trace (11 * i) mnemonic_bits 0 11 false).2 →
        wr < 11 * n) ∧
      11 * n ≤ 8 * ((11 * n - 1) / 8 + 1) ∧ 8 * ((11 * n - 1) / 8 + 1) ≤ 264) := by
  refine ⟨?_, ?_, ?_, ?_⟩
  · intro key words nw0 hL hw
    exact bip39_key_to_mnemonic_words_chk_eq tbl sha key words nw0 hL (hsha key) hw
  · intro L i kwc hL hi
    have hL' : L = 16 ∨ L = 20 ∨ L = 24 ∨ L = 28 ∨ L = 32 := hL
    have e : 11 * (i + 1) - 11 * i = 11 := by omega
    have ht := mem_bit_range_copy_trace kwc (11 * i) 5 11
    have htr : bit_range_extract_trace 0 kwc (11 * i) (11 * (i + 1)) true =
        bit_range_copy_trace kwc (11 * i) 5 11 := by
      unfold bit_range_extract_trace
      simp only [e, bits_to_bytes]
      rfl
    rw [htr]
    refine ⟨fun rd h => ?_, fun wr h => ?_, group_value_lt kwc i⟩
    · have := ht.1 rd h; omega
    · have := ht.2 wr h; omega
  · intro words n key_in kl0 hn hw hk
    refine ⟨bip39_key_from_mnemonic_words_chk_eq tbl sha words n key_in kl0 hn hsha hw hk, ?_⟩
    obtain ⟨r, hr, _⟩ := decode_spec tbl sha words n key_in kl0 hn _ _ rfl rfl
    exact ⟨r, hr⟩
  · intro n i mb hn hi
    have hn' : n = 12 ∨ n = 15 ∨ n = 18 ∨ n = 21 ∨ n = 24 := hn
    have ht := mem_bit_range_copy_trace mb 0 (11 * i) 11
    have htr : bit_range_extract_trace (11 * i) mb 0 11 false =
        bit_range_copy_trace mb 0 (11 * i) 11 := rfl
    rw [htr]
    refine ⟨fun rd h => ?_, fun wr h => ?_, by omega, by omega⟩
    · have := ht.1 rd h; omega
    · have := ht.2 wr h; omega

theorem accesses_in_bounds_witness :
    (∀ m, IsDigest (demo_sha m)) ∧
    bip39_key_to_mnemonic_words_chk demo_tbl demo_sha (List.replicate 16 0x7f)
        ((List.replicate 16 0x7f).length : Int) (List.replicate 24 none) 0 =
      some (bip39_key_to_mnemonic_words demo_tbl demo_sha (List.replicate 16 0x7f)
        ((List.replicate 16 0x7f).length : Int) (List.replicate 24 none) 0) :=
  ⟨demo_sha_digest,
   (accesses_in_bounds demo_tbl demo_sha demo_sha_digest).1 (List.replicate 16 0x7f)
     (List.replicate 24 none) 0 (by decide) (by decide)⟩

end Bip39
